import Mathlib

/-!
Verification of the electoral systems library (Schulze method, pairwise
preferences, Floyd-Warshall widest paths, instant-runoff voting).

The Rust source is embedded shallowly:
* candidate handles (`Candidate { id: usize }`) are `Nat`;
* ranks (`i32`) are `Int`;
* ballots (`Vec<(Candidate, Rank)>`) are `List (Nat × Int)`;
* matrices (`Vec<Vec<i32>>`) are `List (List Int)`, with `getM`/`setM` as
  indexing (Rust indexing panics out of bounds; all verified accesses are
  in bounds, witnessed by `SquareM` hypotheses);
* `i32::MAX` is the integer constant `i32MAX`; i32 arithmetic in the source
  never overflows on the inputs considered (entries are only copied,
  compared, and min/maxed; counts increment once per ballot), so `Int`
  with explicit range hypotheses is a faithful model.
-/

namespace Electoral

/-- Ranks are signed 32-bit integers in the source (`type Rank = i32`). -/
abbrev Rank := Int

/-- `type Ballot = Vec<(Candidate, Rank)>`; candidate handles are the `usize` ids. -/
abbrev Ballot := List (Nat × Rank)

/-- Model of `Vec<Vec<i32>>` matrices. -/
abbrev Mat := List (List Int)

/-- `i32::MAX`. -/
def i32MAX : Int := 2147483647

/-- Read entry `(i, j)` of a matrix (Rust `m[i][j]`; all verified reads are in bounds). -/
def getM (m : Mat) (i j : Nat) : Int := (m.getD i []).getD j 0

/-- Write entry `(i, j)` of a matrix (Rust `m[i][j] = v`). -/
def setM (m : Mat) (i j : Nat) (v : Int) : Mat := m.set i ((m.getD i []).set j v)

/-- The matrix is square of dimension `n`. -/
def SquareM (m : Mat) (n : Nat) : Prop := m.length = n ∧ ∀ r ∈ m, r.length = n

theorem getD_row (m : Mat) (i : Nat) : m.getD i [] = (m[i]?).getD [] :=
  List.getD_eq_getElem?_getD ..

theorem getD_row_mem {m : Mat} {i : Nat} (h : i < m.length) : m.getD i [] ∈ m := by
  rw [getD_row, List.getElem?_eq_getElem h]
  exact List.getElem_mem ..

theorem length_setM (m : Mat) (i j : Nat) (v : Int) : (setM m i j v).length = m.length :=
  List.length_set ..

theorem squareM_setM {m : Mat} {n : Nat} (h : SquareM m n) (i j : Nat) (v : Int) :
    SquareM (setM m i j v) n := by
  obtain ⟨hl, hr⟩ := h
  refine ⟨(length_setM ..).trans hl, fun r hrm => ?_⟩
  rcases List.mem_or_eq_of_mem_set hrm with h1 | h2
  · exact hr r h1
  · by_cases hi : i < m.length
    · subst h2
      rw [List.length_set]
      exact hr _ (getD_row_mem hi)
    · rw [setM, List.set_eq_of_length_le (by omega)] at hrm
      exact hr r hrm

theorem getM_setM_self {m : Mat} {n : Nat} (h : SquareM m n) {i j : Nat}
    (hi : i < n) (hj : j < n) (v : Int) : getM (setM m i j v) i j = v := by
  obtain ⟨hl, hr⟩ := h
  have him : i < m.length := by omega
  have hrow : (m.getD i []).length = n := hr _ (getD_row_mem him)
  simp only [getM, setM, List.getD_eq_getElem?_getD]
  rw [List.getElem?_set, if_pos rfl, if_pos him]
  simp only [Option.getD_some]
  rw [List.getElem?_set, if_pos rfl,
    if_pos (by rw [← List.getD_eq_getElem?_getD]; omega)]
  rfl

theorem getM_setM_ne {m : Mat} {i j a b : Nat} (h : i ≠ a ∨ j ≠ b) (v : Int) :
    getM (setM m i j v) a b = getM m a b := by
  simp only [getM, setM, List.getD_eq_getElem?_getD]
  rw [List.getElem?_set]
  by_cases hia : i = a
  · subst hia
    have hjb : j ≠ b := by tauto
    rw [if_pos rfl]
    by_cases him : i < m.length
    · rw [if_pos him]
      simp only [Option.getD_some]
      rw [List.getElem?_set, if_neg hjb]
    · rw [if_neg him, List.getElem?_eq_none (Nat.le_of_not_lt him)]
  · rw [if_neg hia]

/-- Entry access outside the rows of the matrix yields the default value. -/
theorem getM_of_le {m : Mat} {i : Nat} (h : m.length ≤ i) (j : Nat) : getM m i j = 0 := by
  unfold getM
  rw [getD_row, List.getElem?_eq_none h]
  simp

theorem foldl_preserveM {α : Type} (P : Mat → Prop) {f : Mat → α → Mat}
    (hf : ∀ m a, P m → P (f m a)) : ∀ (l : List α) (m : Mat), P m → P (l.foldl f m)
  | [], _, h => h
  | a :: l, m, h => foldl_preserveM P hf l (f m a) (hf m a h)

/-! ## Floyd-Warshall widest paths

Embeds `floyd_warshall_widest_paths` from `schulze_method.rs` (identical in
`lib.rs`): copy the weights, set every diagonal entry to `i32::MAX`, then for
`k`, `i`, `j` in `0..dim` (with `k` outermost) raise `m[i][j]` to
`min(m[i][k], m[k][j])` whenever that is larger. -/

/-- Inner loop body: `let width_using_k = min(m[i][k], m[k][j]); if m[i][j] < width_using_k { m[i][j] = width_using_k }`. -/
def fwStep (k i j : Nat) (m : Mat) : Mat :=
  let width_using_k := min (getM m i k) (getM m k j)
  if getM m i j < width_using_k then setM m i j width_using_k else m

/-- The loop `for j in 0..dim`. -/
def fwRow (k i dim : Nat) (m : Mat) : Mat :=
  (List.range dim).foldl (fun m j => fwStep k i j m) m

/-- The loop `for i in 0..dim { for j in 0..dim { .. } }`. -/
def fwPass (k dim : Nat) (m : Mat) : Mat :=
  (List.range dim).foldl (fun m i => fwRow k i dim m) m

/-- The initialization loop `for i in 0..dim { m[i][i] = i32::MAX }`. -/
def initDiag (dim : Nat) (m : Mat) : Mat :=
  (List.range dim).foldl (fun m i => setM m i i i32MAX) m

/-- The outermost loop, `t` passes: intermediate nodes `k = 0, .., t-1` in order. -/
def fwIter (dim : Nat) (m : Mat) : Nat → Mat
  | 0 => m
  | t + 1 => fwPass t dim (fwIter dim m t)

/-- `floyd_warshall_widest_paths` from the source: empty input yields an empty
matrix, otherwise initialize the diagonal and run the triple loop. -/
def floyd_warshall_widest_paths (weights : Mat) : Mat :=
  if weights.length = 0 then []
  else fwIter weights.length (initDiag weights.length weights) weights.length

theorem squareM_fwStep {m : Mat} {n : Nat} (h : SquareM m n) (k i j : Nat) :
    SquareM (fwStep k i j m) n := by
  unfold fwStep
  dsimp only
  split
  · exact squareM_setM h ..
  · exact h

theorem squareM_fwRow {m : Mat} {n : Nat} (h : SquareM m n) (k i dim : Nat) :
    SquareM (fwRow k i dim m) n :=
  foldl_preserveM (fun m => SquareM m n) (fun m j hm => squareM_fwStep hm k i j) _ m h

theorem squareM_fwPass {m : Mat} {n : Nat} (h : SquareM m n) (k dim : Nat) :
    SquareM (fwPass k dim m) n :=
  foldl_preserveM (fun m => SquareM m n) (fun m i hm => squareM_fwRow hm k i dim) _ m h

theorem squareM_initDiag {m : Mat} {n : Nat} (h : SquareM m n) (dim : Nat) :
    SquareM (initDiag dim m) n :=
  foldl_preserveM (fun m => SquareM m n) (fun m i hm => squareM_setM hm i i i32MAX) _ m h

theorem squareM_fwIter {m : Mat} {n : Nat} (h : SquareM m n) (dim : Nat) :
    ∀ t, SquareM (fwIter dim m t) n
  | 0 => h
  | t + 1 => squareM_fwPass (squareM_fwIter h dim t) t dim

theorem max_min_absorb_left (x y : Int) : max x (min x y) = x :=
  max_eq_left (min_le_left ..)

theorem max_min_absorb_right (x y : Int) : max y (min x y) = y :=
  max_eq_left (min_le_right ..)

theorem getM_fwStep {m : Mat} {n : Nat} (h : SquareM m n) {i j : Nat}
    (hi : i < n) (hj : j < n) (k a b : Nat) :
    getM (fwStep k i j m) a b =
      if a = i ∧ b = j then max (getM m i j) (min (getM m i k) (getM m k j))
      else getM m a b := by
  unfold fwStep
  dsimp only
  by_cases hab : a = i ∧ b = j
  · obtain ⟨ha, hb⟩ := hab
    subst ha
    subst hb
    split
    · rw [getM_setM_self h hi hj, if_pos ⟨rfl, rfl⟩]
      omega
    · rw [if_pos ⟨rfl, rfl⟩]
      omega
  · rw [if_neg hab]
    split
    · exact getM_setM_ne (by tauto) _
    · rfl

/-- Characterization of the inner `j` loop truncated at `t`, in terms of the
matrix at loop entry: row `i` is raised pointwise, everything else untouched. -/
theorem fwRow_charAux {m : Mat} {n : Nat} (h : SquareM m n) {k i : Nat}
    (hi : i < n) (hk : k < n) :
    ∀ t, t ≤ n → ∀ a b,
      getM ((List.range t).foldl (fun m j => fwStep k i j m) m) a b =
        if a = i ∧ b < t then max (getM m i b) (min (getM m i k) (getM m k b))
        else getM m a b := by
  intro t
  induction t with
  | zero => simp
  | succ t ih =>
    intro ht a b
    rw [List.range_succ, List.foldl_append]
    set prev := (List.range t).foldl (fun m j => fwStep k i j m) m with hprev
    have hsq : SquareM prev n :=
      foldl_preserveM (fun m => SquareM m n) (fun m j hm => squareM_fwStep hm k i j) _ m h
    have ihp := ih (by omega)
    have hit : getM prev i t = getM m i t := by
      rw [ihp]
      simp
    have hik : getM prev i k = getM m i k := by
      rw [ihp]
      by_cases hkt : k < t
      · rw [if_pos ⟨rfl, hkt⟩, max_min_absorb_left]
      · rw [if_neg (by tauto)]
    have hkt : getM prev k t = getM m k t := by
      by_cases hki : k = i
      · subst hki
        exact hit
      · rw [ihp, if_neg (by omega)]
    simp only [List.foldl_cons, List.foldl_nil]
    rw [getM_fwStep hsq hi (by omega) k a b]
    by_cases hab : a = i ∧ b = t
    · obtain ⟨ha, hb⟩ := hab
      subst ha
      subst hb
      rw [if_pos ⟨rfl, rfl⟩, if_pos ⟨rfl, by omega⟩, hit, hik, hkt]
    · rw [if_neg hab, ihp]
      by_cases hb : a = i ∧ b < t
      · rw [if_pos hb, if_pos ⟨hb.1, by omega⟩]
      · rw [if_neg hb, if_neg (by omega)]

/-- Characterization of the full inner `j` loop on the matrix at its entry. -/
theorem fwRow_char {m : Mat} {n : Nat} (h : SquareM m n) {k i : Nat}
    (hi : i < n) (hk : k < n) (a b : Nat) :
    getM (fwRow k i n m) a b =
      if a = i ∧ b < n then max (getM m i b) (min (getM m i k) (getM m k b))
      else getM m a b :=
  fwRow_charAux h hi hk n le_rfl a b

/-- Characterization of one complete pass `k` of the triple loop:
every in-range entry is raised by the best two-hop width through `k`,
computed from the values at pass entry. -/
theorem getM_fwPass {m : Mat} {n : Nat} (h : SquareM m n) {k : Nat} (hk : k < n)
    (a b : Nat) :
    getM (fwPass k n m) a b =
      if a < n ∧ b < n then max (getM m a b) (min (getM m a k) (getM m k b))
      else getM m a b := by
  have main : ∀ t, t ≤ n → ∀ a b,
      getM ((List.range t).foldl (fun m i => fwRow k i n m) m) a b =
        if a < t ∧ b < n then max (getM m a b) (min (getM m a k) (getM m k b))
        else getM m a b := by
    intro t
    induction t with
    | zero => simp
    | succ t ih =>
      intro ht a b
      rw [List.range_succ, List.foldl_append]
      set prev := (List.range t).foldl (fun m i => fwRow k i n m) m with hprev
      have hsq : SquareM prev n :=
        foldl_preserveM (fun m => SquareM m n) (fun m i hm => squareM_fwRow hm k i n) _ m h
      have ihp := ih (by omega)
      have htb : ∀ b, getM prev t b = getM m t b := by
        intro b
        rw [ihp, if_neg (by omega)]
      have hkb : ∀ b, getM prev k b = getM m k b := by
        intro b
        rw [ihp]
        by_cases hcond : k < t ∧ b < n
        · rw [if_pos hcond, max_min_absorb_right]
        · rw [if_neg hcond]
      simp only [List.foldl_cons, List.foldl_nil]
      rw [fwRow_char hsq (by omega) hk a b]
      by_cases ha : a = t
      · subst ha
        by_cases hb : b < n
        · rw [if_pos ⟨rfl, hb⟩, if_pos (by omega), htb, htb, hkb]
        · rw [if_neg (by tauto), ihp, if_neg (by omega), if_neg (by omega)]
      · rw [if_neg (by tauto), ihp]
        by_cases hcond : a < t ∧ b < n
        · rw [if_pos hcond, if_pos ⟨by omega, hcond.2⟩]
        · rw [if_neg hcond, if_neg (by omega)]
  exact main n le_rfl a b

/-- A pass never decreases any entry. -/
theorem getM_fwPass_ge {m : Mat} {n : Nat} (h : SquareM m n) {k : Nat} (hk : k < n)
    (a b : Nat) : getM m a b ≤ getM (fwPass k n m) a b := by
  rw [getM_fwPass h hk a b]
  split
  · exact le_max_left ..
  · exact le_rfl

/-- A pass raises each in-range entry at least to the two-hop width through `k`. -/
theorem getM_fwPass_ge_hop {m : Mat} {n : Nat} (h : SquareM m n) {k a b : Nat}
    (hk : k < n) (ha : a < n) (hb : b < n) :
    min (getM m a k) (getM m k b) ≤ getM (fwPass k n m) a b := by
  rw [getM_fwPass h hk a b, if_pos ⟨ha, hb⟩]
  exact le_max_right ..

/-- Column `k` is untouched by pass `k`. -/
theorem getM_fwPass_col {m : Mat} {n : Nat} (h : SquareM m n) {k : Nat} (hk : k < n)
    (a : Nat) : getM (fwPass k n m) a k = getM m a k := by
  rw [getM_fwPass h hk a k]
  split
  · exact max_min_absorb_left ..
  · rfl

/-- Row `k` is untouched by pass `k`. -/
theorem getM_fwPass_row {m : Mat} {n : Nat} (h : SquareM m n) {k : Nat} (hk : k < n)
    (b : Nat) : getM (fwPass k n m) k b = getM m k b := by
  rw [getM_fwPass h hk k b]
  split
  · exact max_min_absorb_right ..
  · rfl

theorem getM_fwIter_ge {m : Mat} {n : Nat} (h : SquareM m n) :
    ∀ t, t ≤ n → ∀ a b, getM m a b ≤ getM (fwIter n m t) a b := by
  intro t
  induction t with
  | zero => exact fun _ a b => le_rfl
  | succ t ih =>
    intro ht a b
    calc getM m a b ≤ getM (fwIter n m t) a b := ih (by omega) a b
    _ ≤ getM (fwPass t n (fwIter n m t)) a b :=
        getM_fwPass_ge (squareM_fwIter h n t) (by omega) a b

/-- All in-range entries bounded above by `V`. -/
def BoundedM (m : Mat) (n : Nat) (V : Int) : Prop :=
  ∀ a b, a < n → b < n → getM m a b ≤ V

theorem boundedM_fwPass {m : Mat} {n : Nat} {V : Int} (h : SquareM m n)
    (hb : BoundedM m n V) {k : Nat} (hk : k < n) : BoundedM (fwPass k n m) n V := by
  intro a b ha hbn
  rw [getM_fwPass h hk a b, if_pos ⟨ha, hbn⟩]
  have h1 := hb a b ha hbn
  have h2 := hb a k ha hk
  have h3 := hb k b hk hbn
  omega

/-- All diagonal entries equal to `i32::MAX`. -/
def DiagMaxM (m : Mat) (n : Nat) : Prop := ∀ a, a < n → getM m a a = i32MAX

theorem diagMaxM_fwPass {m : Mat} {n : Nat} (h : SquareM m n)
    (hd : DiagMaxM m n) (hb : BoundedM m n i32MAX) {k : Nat} (hk : k < n) :
    DiagMaxM (fwPass k n m) n := by
  intro a ha
  rw [getM_fwPass h hk a a, if_pos ⟨ha, ha⟩, hd a ha]
  have h2 := hb a k ha hk
  have h3 := hb k a hk ha
  omega

/-- The triangle property for intermediate nodes below `t`. -/
def TriM (m : Mat) (n t : Nat) : Prop :=
  ∀ kp, kp < t → ∀ a b, a < n → b < n →
    min (getM m a kp) (getM m kp b) ≤ getM m a b

theorem triM_fwPass {m : Mat} {n k : Nat} (h : SquareM m n) (hk : k < n)
    (ht : TriM m n k) : TriM (fwPass k n m) n (k + 1) := by
  intro kp hkp a b ha hb
  by_cases hkk : kp = k
  · subst hkk
    rw [getM_fwPass_col h hk a, getM_fwPass_row h hk b,
      getM_fwPass h hk a b, if_pos ⟨ha, hb⟩]
    exact le_max_right ..
  · have hkpn : kp < n := by omega
    have hkpk : kp < k := by omega
    have e1 := getM_fwPass h hk a b
    rw [if_pos ⟨ha, hb⟩] at e1
    have e2 := getM_fwPass h hk a kp
    rw [if_pos ⟨ha, hkpn⟩] at e2
    have e3 := getM_fwPass h hk kp b
    rw [if_pos ⟨hkpn, hb⟩] at e3
    have i1 := ht kp hkpk a b ha hb
    have i2 := ht kp hkpk k b hk hb
    have i3 := ht kp hkpk a k ha hk
    omega

theorem triM_fwIter {m : Mat} {n : Nat} (h : SquareM m n) :
    ∀ t, t ≤ n → TriM (fwIter n m t) n t := by
  intro t
  induction t with
  | zero => exact fun _ kp hkp => absurd hkp (by omega)
  | succ t ih =>
    intro ht
    exact triM_fwPass (squareM_fwIter h n t) (by omega) (ih (by omega))

/-- Characterization of the diagonal initialization loop. -/
theorem getM_initDiag {m : Mat} {n : Nat} (h : SquareM m n) (a b : Nat) :
    getM (initDiag n m) a b = if a = b ∧ a < n then i32MAX else getM m a b := by
  have main : ∀ t, t ≤ n → ∀ a b,
      getM ((List.range t).foldl (fun m i => setM m i i i32MAX) m) a b =
        if a = b ∧ a < t then i32MAX else getM m a b := by
    intro t
    induction t with
    | zero => simp
    | succ t ih =>
      intro ht a b
      rw [List.range_succ, List.foldl_append]
      set prev := (List.range t).foldl (fun m i => setM m i i i32MAX) m with hprev
      have hsq : SquareM prev n :=
        foldl_preserveM (fun m => SquareM m n) (fun m i hm => squareM_setM hm i i i32MAX) _ m h
      have ihp := ih (by omega)
      simp only [List.foldl_cons, List.foldl_nil]
      by_cases hab : a = t ∧ b = t
      · obtain ⟨ha, hb2⟩ := hab
        subst ha
        subst hb2
        rw [getM_setM_self hsq (by omega) (by omega), if_pos ⟨rfl, by omega⟩]
      · rw [getM_setM_ne (by tauto) _, ihp]
        by_cases hcond : a = b ∧ a < t
        · rw [if_pos hcond, if_pos ⟨hcond.1, by omega⟩]
        · rw [if_neg hcond, if_neg (by omega)]
  exact main n le_rfl a b

/-- The bottleneck capacity of a path, computed exactly as the property test in
the source does: start from `i32::MAX` and take the minimum over the weights of
consecutive edges. -/
def pathWidth (W : Mat) : List Nat → Int
  | a :: b :: rest => min (getM W a b) (pathWidth W (b :: rest))
  | _ => i32MAX

theorem pathWidth_nil (W : Mat) : pathWidth W [] = i32MAX := rfl

theorem pathWidth_single (W : Mat) (a : Nat) : pathWidth W [a] = i32MAX := rfl

theorem pathWidth_cons2 (W : Mat) (a b : Nat) (r : List Nat) :
    pathWidth W (a :: b :: r) = min (getM W a b) (pathWidth W (b :: r)) := rfl

theorem pathWidth_le_MAX (W : Mat) : ∀ p, pathWidth W p ≤ i32MAX
  | [] => le_rfl
  | [_] => le_rfl
  | _ :: b :: r => by
    rw [pathWidth_cons2]
    exact le_trans (min_le_right ..) (pathWidth_le_MAX W (b :: r))

/-- Splitting a path at an intermediate vertex splits its bottleneck. -/
theorem pathWidth_split (W : Mat) (x : Nat) (l2 : List Nat) :
    ∀ l1 : List Nat,
      pathWidth W (l1 ++ x :: l2) = min (pathWidth W (l1 ++ [x])) (pathWidth W (x :: l2)) := by
  intro l1
  induction l1 with
  | nil =>
    have := pathWidth_le_MAX W (x :: l2)
    simp only [List.nil_append, pathWidth_single]
    omega
  | cons a l1 ih =>
    cases l1 with
    | nil =>
      show pathWidth W (a :: x :: l2) = min (pathWidth W (a :: [x])) (pathWidth W (x :: l2))
      rw [pathWidth_cons2, pathWidth_cons2 W a x [], pathWidth_single]
      have h1 := pathWidth_le_MAX W (x :: l2)
      omega
    | cons c t =>
      simp only [List.cons_append] at ih ⊢
      rw [pathWidth_cons2, pathWidth_cons2, ih]
      omega

/-- Invariant of the outer Floyd-Warshall loop: after the passes for
intermediate nodes `0, .., t-1`, the matrix dominates the bottleneck of every
simple path whose interior vertices are all below `t`. -/
theorem fwIter_ge_pathWidth {W : Mat} {n : Nat} (h : SquareM W n) :
    ∀ t, t ≤ n → ∀ a b (mid : List Nat), (a :: mid ++ [b]).Nodup →
      a < n → b < n → (∀ v ∈ mid, v < n) → (∀ v ∈ mid, v < t) →
      pathWidth W (a :: mid ++ [b]) ≤ getM (fwIter n (initDiag n W) t) a b := by
  have hsq0 : SquareM (initDiag n W) n := squareM_initDiag h n
  intro t
  induction t with
  | zero =>
    intro hle a b mid hnd ha hb hvn hvt
    have hmid : mid = [] := by
      cases mid with
      | nil => rfl
      | cons v r => exact absurd (hvt v (by simp)) (by omega)
    subst hmid
    have hab : a ≠ b := by
      intro hcontra
      subst hcontra
      simp at hnd
    simp only [List.nil_append, pathWidth_cons2, pathWidth_single, fwIter]
    rw [getM_initDiag h a b, if_neg (by tauto)]
    exact min_le_left ..
  | succ t ih =>
    intro ht a b mid hnd ha hb hvn hvt
    have hsqt : SquareM (fwIter n (initDiag n W) t) n := squareM_fwIter hsq0 n t
    by_cases hmem : t ∈ mid
    · obtain ⟨m1, m2, hsplit⟩ := List.append_of_mem hmem
      subst hsplit
      have hmidnd : (m1 ++ t :: m2).Nodup := by
        have h1 : (m1 ++ t :: m2 ++ [b]).Nodup := (List.nodup_cons.mp (by simpa using hnd)).2
        have h2 : ((m1 ++ t :: m2).append [b]).Nodup := by simpa using h1
        exact (List.nodup_append.mp h2).1
      have htm1 : t ∉ m1 := by
        rcases List.nodup_append.mp hmidnd with ⟨-, -, hdisj⟩
        intro hc
        exact hdisj hc (by simp)
      have htm2 : t ∉ m2 := by
        rcases List.nodup_append.mp hmidnd with ⟨-, hnd2, -⟩
        exact (List.nodup_cons.mp hnd2).1
      have hsub1 : List.Sublist (a :: m1 ++ [t]) (a :: (m1 ++ t :: m2) ++ [b]) := by
        refine List.Sublist.cons₂ a ?_
        have h1 : List.Sublist (m1 ++ [t]) (m1 ++ (t :: m2 ++ [b])) :=
          List.Sublist.append_left (List.Sublist.cons₂ t (List.nil_sublist _)) m1
        simpa using h1
      have hsub2 : List.Sublist (t :: m2 ++ [b]) (a :: (m1 ++ t :: m2) ++ [b]) := by
        refine List.Sublist.cons a ?_
        have h1 : List.Sublist (t :: m2 ++ [b]) (m1 ++ (t :: m2 ++ [b])) :=
          List.sublist_append_right ..
        simpa using h1
      have ih1 := ih (by omega) a t m1 (hnd.sublist hsub1) ha (by omega)
        (fun v hv => hvn v (by simp [hv]))
        (fun v hv => by
          have h1 : v < t + 1 := hvt v (by simp [hv])
          have h2 : v ≠ t := fun hc => htm1 (hc ▸ hv)
          omega)
      have ih2 := ih (by omega) t b m2 (hnd.sublist hsub2) (by omega) hb
        (fun v hv => hvn v (by simp [hv]))
        (fun v hv => by
          have h1 : v < t + 1 := hvt v (by simp [hv])
          have h2 : v ≠ t := fun hc => htm2 (hc ▸ hv)
          omega)
      have hsplitw : pathWidth W (a :: (m1 ++ t :: m2) ++ [b]) =
          min (pathWidth W (a :: m1 ++ [t])) (pathWidth W (t :: m2 ++ [b])) := by
        have := pathWidth_split W t (m2 ++ [b]) (a :: m1)
        simpa using this
      have hhop := getM_fwPass_ge_hop hsqt (show t < n by omega) ha hb
      show pathWidth W (a :: (m1 ++ t :: m2) ++ [b]) ≤
        getM (fwPass t n (fwIter n (initDiag n W) t)) a b
      rw [hsplitw]
      omega
    · have ihc := ih (by omega) a b mid hnd ha hb hvn
        (fun v hv => by
          have h1 : v < t + 1 := hvt v hv
          have h2 : v ≠ t := fun hc => hmem (hc ▸ hv)
          omega)
      calc pathWidth W (a :: mid ++ [b]) ≤ getM (fwIter n (initDiag n W) t) a b := ihc
      _ ≤ getM (fwIter n (initDiag n W) (t + 1)) a b :=
          getM_fwPass_ge hsqt (show t < n by omega) a b

theorem fw_eq {W : Mat} {n : Nat} (h : SquareM W n) (hn : n ≠ 0) :
    floyd_warshall_widest_paths W = fwIter n (initDiag n W) n := by
  unfold floyd_warshall_widest_paths
  rw [h.1, if_neg hn]

theorem squareM_fw {W : Mat} {n : Nat} (h : SquareM W n) :
    SquareM (floyd_warshall_widest_paths W) n := by
  by_cases hn : n = 0
  · subst hn
    unfold floyd_warshall_widest_paths
    rw [h.1, if_pos rfl]
    exact ⟨rfl, by simp⟩
  · rw [fw_eq h hn]
    exact squareM_fwIter (squareM_initDiag h n) n n

theorem triM_fw {W : Mat} {n : Nat} (h : SquareM W n) (hn : n ≠ 0) :
    TriM (floyd_warshall_widest_paths W) n n := by
  rw [fw_eq h hn]
  exact triM_fwIter (squareM_initDiag h n) n le_rfl

theorem boundedM_initDiag {W : Mat} {n : Nat} (h : SquareM W n) {V : Int}
    (hV : i32MAX ≤ V) (hb : BoundedM W n V) : BoundedM (initDiag n W) n V := by
  intro a b ha hbn
  rw [getM_initDiag h a b]
  split
  · exact hV
  · exact hb a b ha hbn

theorem diagMaxM_initDiag {W : Mat} {n : Nat} (h : SquareM W n) :
    DiagMaxM (initDiag n W) n := by
  intro a ha
  rw [getM_initDiag h a a, if_pos ⟨rfl, ha⟩]

theorem boundedM_fwIter {m : Mat} {n : Nat} {V : Int} (h : SquareM m n)
    (hb : BoundedM m n V) : ∀ t, t ≤ n → BoundedM (fwIter n m t) n V := by
  intro t
  induction t with
  | zero => exact fun _ => hb
  | succ t ih =>
    intro ht
    exact boundedM_fwPass (squareM_fwIter h n t) (ih (by omega)) (by omega)

theorem diagMaxM_fwIter {m : Mat} {n : Nat} (h : SquareM m n)
    (hd : DiagMaxM m n) (hb : BoundedM m n i32MAX) :
    ∀ t, t ≤ n → DiagMaxM (fwIter n m t) n := by
  intro t
  induction t with
  | zero => exact fun _ => hd
  | succ t ih =>
    intro ht
    exact diagMaxM_fwPass (squareM_fwIter h n t) (ih (by omega))
      (boundedM_fwIter h hb t (by omega)) (by omega)

/-- Final widest-path matrix dominates the diagonal-initialized input. -/
theorem getM_fw_ge_init {W : Mat} {n : Nat} (h : SquareM W n) (hn : n ≠ 0) (a b : Nat) :
    getM (initDiag n W) a b ≤ getM (floyd_warshall_widest_paths W) a b := by
  rw [fw_eq h hn]
  exact getM_fwIter_ge (squareM_initDiag h n) n le_rfl a b

/-- On every matrix whose final widest-path matrix satisfies the triangle
property, the strict widest-path preference relation is transitive. -/
theorem strict_pref_trans {M : Mat} {n : Nat} (ht : TriM M n n) {a b c : Nat}
    (ha : a < n) (hb : b < n) (hc : c < n)
    (h1 : getM M b a < getM M a b) (h2 : getM M c b < getM M b c) :
    getM M c a < getM M a c := by
  have t1 := ht b hb a c ha hc
  have t2 := ht b hb c a hc ha
  have t3 := ht c hc b a hb ha
  have t4 := ht c hc a b ha hb
  have t5 := ht a ha b c hb hc
  have t6 := ht a ha c b hc hb
  omega

/-- A finite set of candidates ordered by a transitive widest-path preference
has a candidate that is beaten by nobody (the Schulze existence argument). -/
theorem exists_unbeaten {M : Mat} {n : Nat} (ht : TriM M n n) (hn : 0 < n) :
    ∃ c, c < n ∧ ∀ d, d < n → d ≠ c → getM M d c ≤ getM M c d := by
  have main : ∀ m, 1 ≤ m → m ≤ n →
      ∃ c, c < m ∧ ∀ d, d < m → d ≠ c → getM M d c ≤ getM M c d := by
    intro m
    induction m with
    | zero => omega
    | succ m ih =>
      intro h1 hm
      by_cases hm0 : m = 0
      · subst hm0
        exact ⟨0, by omega, fun d hd hdne => by omega⟩
      · obtain ⟨c, hcm, hcbeats⟩ := ih (by omega) (by omega)
        by_cases hS : getM M c m < getM M m c
        · refine ⟨m, by omega, fun d hd hdne => ?_⟩
          by_contra hcon
          push_neg at hcon
          have hdm : d < m := by omega
          by_cases hdc : d = c
          · subst hdc
            omega
          · have : getM M c d < getM M d c :=
              strict_pref_trans ht (by omega) (by omega) (by omega) hcon hS
            have := hcbeats d hdm hdc
            omega
        · refine ⟨c, by omega, fun d hd hdne => ?_⟩
          by_cases hdm : d = m
          · subst hdm
            omega
          · exact hcbeats d (by omega) hdne
  obtain ⟨c, hc, hcb⟩ := main n hn le_rfl
  exact ⟨c, hc, hcb⟩

/-! ## Ballot validity

`valid_ballot` (`lib.rs`, also the body of `unique_candidates` used by
`schulze_method.rs` and `instant_runoff_voting.rs`): collect the candidate ids,
sort them ascending, and reject the ballot when two adjacent sorted ids are
equal. `Vec::sort` is a stable ascending sort; on a list of plain `Nat` ids any
correct ascending sort produces the same list, so it is embedded as an
insertion sort. -/

/-- Insert an id into an ascending list, keeping it sorted. -/
def insertNat (x : Nat) : List Nat → List Nat
  | [] => [x]
  | y :: ys => if y ≤ x then y :: insertNat x ys else x :: y :: ys

/-- Ascending sort of candidate ids (models `candates.sort()`). -/
def sortNat : List Nat → List Nat
  | [] => []
  | x :: xs => insertNat x (sortNat xs)

/-- Scan of `candates.windows(2)` rejecting adjacent duplicates. -/
def noAdjDup : List Nat → Bool
  | x :: y :: rest => if x = y then false else noAdjDup (y :: rest)
  | _ => true

/-- `valid_ballot`: a ballot is valid iff no candidate handle repeats (the
source's early return for the empty list is subsumed: the scan of an empty
sorted list accepts). -/
def valid_ballot (ballot : Ballot) : Bool :=
  noAdjDup (sortNat (ballot.map Prod.fst))

theorem insertNat_perm (x : Nat) : ∀ l : List Nat, List.Perm (insertNat x l) (x :: l)
  | [] => List.Perm.refl _
  | y :: ys => by
    unfold insertNat
    split
    · exact ((insertNat_perm x ys).cons y).trans (List.Perm.swap x y ys)
    · exact List.Perm.refl _

theorem sortNat_perm : ∀ l : List Nat, List.Perm (sortNat l) l
  | [] => List.Perm.refl _
  | x :: xs => ((insertNat_perm x (sortNat xs)).trans ((sortNat_perm xs).cons x))

theorem insertNat_sorted (x : Nat) :
    ∀ l : List Nat, l.Sorted (· ≤ ·) → (insertNat x l).Sorted (· ≤ ·)
  | [], _ => List.sorted_singleton x
  | y :: ys, h => by
    rw [List.sorted_cons] at h
    obtain ⟨hy, hys⟩ := h
    unfold insertNat
    split
    · rename_i hyx
      rw [List.sorted_cons]
      refine ⟨fun b hb => ?_, insertNat_sorted x ys hys⟩
      rcases List.mem_cons.mp ((insertNat_perm x ys).mem_iff.mp hb) with h1 | h1
      · omega
      · exact hy b h1
    · rename_i hyx
      rw [List.sorted_cons]
      refine ⟨fun b hb => ?_, List.sorted_cons.mpr ⟨hy, hys⟩⟩
      rcases List.mem_cons.mp hb with h1 | h1
      · omega
      · have h2 := hy b h1
        omega

theorem sortNat_sorted : ∀ l : List Nat, (sortNat l).Sorted (· ≤ ·)
  | [] => List.sorted_nil
  | x :: xs => insertNat_sorted x (sortNat xs) (sortNat_sorted xs)

theorem noAdjDup_iff_nodup : ∀ l : List Nat, l.Sorted (· ≤ ·) →
    (noAdjDup l = true ↔ l.Nodup)
  | [], _ => by simp [noAdjDup]
  | [x], _ => by simp [noAdjDup]
  | x :: y :: r, h => by
    rw [List.sorted_cons] at h
    obtain ⟨hx, hyr⟩ := h
    unfold noAdjDup
    split
    · rename_i hxy
      subst hxy
      simp
    · rename_i hxy
      have hxmem : x ∉ y :: r := by
        intro hc
        rcases List.mem_cons.mp hc with h1 | h1
        · exact hxy h1
        · have h2 := hx y (List.mem_cons.mpr (Or.inl rfl))
          have h3 := (List.sorted_cons.mp hyr).1 x h1
          omega
      rw [noAdjDup_iff_nodup (y :: r) hyr]
      simp only [List.nodup_cons]
      tauto

/-- The validity check accepts exactly the ballots with pairwise distinct
candidate handles. -/
theorem valid_ballot_iff (ballot : Ballot) :
    valid_ballot ballot = true ↔ (ballot.map Prod.fst).Nodup := by
  unfold valid_ballot
  rw [noAdjDup_iff_nodup _ (sortNat_sorted _)]
  exact (sortNat_perm _).nodup_iff

/-! ## Pairwise preferences

`highest_id` and `PairwisePreferences` from `lib.rs` (the `counts` field in
the `schulze_method.rs` snapshot is the same structure). -/

/-- `highest_id`: running maximum of all candidate ids on all ballots. -/
def highest_id (votes : List Ballot) : Nat :=
  votes.foldl (fun acc ballot => ballot.foldl (fun a p => max a p.1) acc) 0

theorem ballot_foldl_max_ge_acc : ∀ (b : Ballot) (acc : Nat),
    acc ≤ b.foldl (fun a p => max a p.1) acc
  | [], _ => le_rfl
  | e :: r, acc =>
    le_trans (le_max_left acc e.1) (ballot_foldl_max_ge_acc r (max acc e.1))

theorem ballot_foldl_max_ge_mem : ∀ (b : Ballot) (acc : Nat) (p : Nat × Rank), p ∈ b →
    p.1 ≤ b.foldl (fun a p => max a p.1) acc
  | e :: r, acc, p, hp => by
    rcases List.mem_cons.mp hp with h1 | h1
    · subst h1
      exact le_trans (le_max_right acc p.1) (ballot_foldl_max_ge_acc r _)
    · exact ballot_foldl_max_ge_mem r _ p h1

theorem votes_foldl_max_ge_acc : ∀ (votes : List Ballot) (acc : Nat),
    acc ≤ votes.foldl (fun acc ballot => ballot.foldl (fun a p => max a p.1) acc) acc
  | [], _ => le_rfl
  | b :: r, acc =>
    le_trans (ballot_foldl_max_ge_acc b acc) (votes_foldl_max_ge_acc r _)

theorem le_highest_id_aux : ∀ (votes : List Ballot) (acc : Nat) (b : Ballot), b ∈ votes →
    ∀ p ∈ b, p.1 ≤ votes.foldl (fun acc ballot => ballot.foldl (fun a p => max a p.1) acc) acc
  | bb :: r, acc, b, hb, p, hp => by
    rcases List.mem_cons.mp hb with h1 | h1
    · subst h1
      exact le_trans (ballot_foldl_max_ge_mem b acc p hp) (votes_foldl_max_ge_acc r _)
    · exact le_highest_id_aux r _ b h1 p hp

/-- Every candidate handle on any ballot is at most `highest_id`. -/
theorem le_highest_id {votes : List Ballot} {b : Ballot} (hb : b ∈ votes)
    {p : Nat × Rank} (hp : p ∈ b) : p.1 ≤ highest_id votes :=
  le_highest_id_aux votes 0 b hb p hp

/-- Increment one cell (`self.count[x][y] += 1`). -/
def incM (m : Mat) (x y : Nat) : Mat := setM m x y (getM m x y + 1)

/-- The ordered index pairs `i < j` of the double loop in `count_ballot`. -/
def ballotPairs : Ballot → List ((Nat × Rank) × (Nat × Rank))
  | [] => []
  | e :: rest => rest.map (fun f => (e, f)) ++ ballotPairs rest

/-- Loop body of `count_ballot` for one index pair: compare ranks and
increment the matching cell; equal ranks change nothing. -/
def countPairStep (m : Mat) (pq : (Nat × Rank) × (Nat × Rank)) : Mat :=
  if pq.1.2 < pq.2.2 then incM m pq.1.1 pq.2.1
  else if pq.2.2 < pq.1.2 then incM m pq.2.1 pq.1.1
  else m

/-- `count_ballot`: for each index pair `i < j`, compare ranks and increment
the matching cell. -/
def count_ballot (m : Mat) (ballot : Ballot) : Mat :=
  (ballotPairs ballot).foldl countPairStep m

/-- `PairwisePreferences::new`: the zero matrix. -/
def zeroMat (num_candidates : Nat) : Mat :=
  List.replicate num_candidates (List.replicate num_candidates 0)

/-- `PairwisePreferences::from_ballots`: dimension `highest_id + 1`, then count
every ballot. -/
def from_ballots (ballots : List Ballot) : Mat :=
  ballots.foldl count_ballot (zeroMat (highest_id ballots + 1))

theorem squareM_zeroMat (n : Nat) : SquareM (zeroMat n) n := by
  refine ⟨List.length_replicate .., fun r hr => ?_⟩
  rw [List.eq_of_mem_replicate hr]
  exact List.length_replicate ..

theorem getM_zeroMat (n x y : Nat) : getM (zeroMat n) x y = 0 := by
  unfold getM zeroMat
  rw [getD_row]
  rcases h : (List.replicate n (List.replicate n (0 : Int)))[x]? with - | r
  · simp
  · have := List.eq_of_mem_replicate (List.getElem?_mem h)
    subst this
    simp only [Option.getD_some]
    rcases h2 : (List.replicate n (0 : Int))[y]? with - | v
    · simp
    · have := List.eq_of_mem_replicate (List.getElem?_mem h2)
      subst this
      simp

theorem squareM_incM {m : Mat} {n : Nat} (h : SquareM m n) (x y : Nat) :
    SquareM (incM m x y) n := squareM_setM h ..

theorem squareM_count_ballot {m : Mat} {n : Nat} (h : SquareM m n) (b : Ballot) :
    SquareM (count_ballot m b) n := by
  refine foldl_preserveM (fun m => SquareM m n) (fun m pq hm => ?_) _ m h
  unfold countPairStep
  split
  · exact squareM_incM hm ..
  · split
    · exact squareM_incM hm ..
    · exact hm

theorem squareM_from_ballots (votes : List Ballot) :
    SquareM (from_ballots votes) (highest_id votes + 1) :=
  foldl_preserveM (fun m => SquareM m (highest_id votes + 1))
    (fun m b hm => squareM_count_ballot hm b) _ _ (squareM_zeroMat _)

theorem squareM_countPairStep {m : Mat} {n : Nat} (h : SquareM m n)
    (pq : (Nat × Rank) × (Nat × Rank)) : SquareM (countPairStep m pq) n := by
  unfold countPairStep
  split
  · exact squareM_incM h ..
  · split
    · exact squareM_incM h ..
    · exact h

theorem getM_incM {m : Mat} {n : Nat} (h : SquareM m n) {x y : Nat}
    (hx : x < n) (hy : y < n) (a b : Nat) :
    getM (incM m x y) a b = getM m a b + (if a = x ∧ b = y then 1 else 0) := by
  by_cases hab : a = x ∧ b = y
  · obtain ⟨h1, h2⟩ := hab
    subst h1
    subst h2
    rw [incM, getM_setM_self h hx hy, if_pos ⟨rfl, rfl⟩]
  · rw [incM, getM_setM_ne (by tauto) _, if_neg hab]
    omega

/-- Specification-side predicate (spec 3 and 4.2): the ballot ranks candidate
`x` strictly above candidate `y`, i.e. it carries entries for both with the
rank of `x` strictly smaller. This is the comparison target for the cell
counts of `PairwisePreferences::from_ballots`. -/
def prefersOn (ballot : Ballot) (x y : Nat) : Bool :=
  ballot.any fun p => ballot.any fun q => p.1 == x && q.1 == y && decide (p.2 < q.2)

theorem prefersOn_iff (b : Ballot) (x y : Nat) :
    prefersOn b x y = true ↔ ∃ p ∈ b, ∃ q ∈ b, p.1 = x ∧ q.1 = y ∧ p.2 < q.2 := by
  unfold prefersOn
  simp only [List.any_eq_true, Bool.and_eq_true, beq_iff_eq, decide_eq_true_eq]
  constructor
  · rintro ⟨p, hp, q, hq, hrest⟩
    exact ⟨p, hp, q, hq, by tauto, by tauto, by tauto⟩
  · rintro ⟨p, hp, q, hq, hpx, hqy, hlt⟩
    exact ⟨p, hp, q, hq, by tauto⟩

/-- Whether the counting loop increments cell `(x, y)` at this index pair. -/
def pairHit (x y : Nat) (pq : (Nat × Rank) × (Nat × Rank)) : Bool :=
  (decide (pq.1.2 < pq.2.2) && (pq.1.1 == x) && (pq.2.1 == y)) ||
  (decide (pq.2.2 < pq.1.2) && (pq.2.1 == x) && (pq.1.1 == y))

theorem cast_ind_match (P : Prop) [Decidable P] (c : Bool) (h : c = true ↔ P) :
    (if c then (1 : Int) else 0) = if P then 1 else 0 := by
  by_cases hp : P
  · rw [if_pos (h.mpr hp), if_pos hp]
  · rw [if_neg (fun hc => hp (h.mp hc)), if_neg hp]

theorem getM_countPairs {n : Nat} :
    ∀ (l : List ((Nat × Rank) × (Nat × Rank))) (m : Mat), SquareM m n →
      (∀ pq ∈ l, pq.1.1 < n ∧ pq.2.1 < n) → ∀ x y,
      getM (l.foldl countPairStep m) x y =
        getM m x y + (l.countP (pairHit x y) : Int) := by
  intro l
  induction l with
  | nil =>
    intro m hm hl x y
    simp
  | cons pq l ih =>
    intro m hm hl x y
    have hpq := hl pq (by simp)
    have hstep : SquareM (countPairStep m pq) n := squareM_countPairStep hm pq
    rw [List.foldl_cons, ih (countPairStep m pq) hstep
      (fun q hq => hl q (by simp [hq])) x y, List.countP_cons]
    push_cast
    unfold countPairStep
    by_cases h1 : pq.1.2 < pq.2.2
    · have hno : ¬pq.2.2 < pq.1.2 := not_lt.mpr h1.le
      have hiff : pairHit x y pq = true ↔ x = pq.1.1 ∧ y = pq.2.1 := by
        unfold pairHit
        rw [decide_eq_true h1, decide_eq_false hno]
        simp only [Bool.true_and, Bool.false_and, Bool.or_false, Bool.and_eq_true,
          beq_iff_eq]
        tauto
      rw [if_pos h1, getM_incM hm hpq.1 hpq.2 x y,
        cast_ind_match (x = pq.1.1 ∧ y = pq.2.1) (pairHit x y pq) hiff]
      omega
    · by_cases h2 : pq.2.2 < pq.1.2
      · have hiff : pairHit x y pq = true ↔ x = pq.2.1 ∧ y = pq.1.1 := by
          unfold pairHit
          rw [decide_eq_true h2, decide_eq_false h1]
          simp only [Bool.true_and, Bool.false_and, Bool.false_or, Bool.and_eq_true,
            beq_iff_eq]
          tauto
        rw [if_neg h1, if_pos h2, getM_incM hm hpq.2 hpq.1 x y,
          cast_ind_match (x = pq.2.1 ∧ y = pq.1.1) (pairHit x y pq) hiff]
        omega
      · have hiff : pairHit x y pq = true ↔ False := by
          unfold pairHit
          rw [decide_eq_false h1, decide_eq_false h2]
          simp
        rw [if_neg h1, if_neg h2, cast_ind_match False (pairHit x y pq) hiff]
        simp

theorem and_true_split {a b : Bool} (h : (a && b) = true) : a = true ∧ b = true := by
  cases a <;> cases b <;> simp_all

theorem or_true_split {a b : Bool} (h : (a || b) = true) : a = true ∨ b = true := by
  cases a <;> cases b <;> simp_all

theorem and_true_join {a b : Bool} (h1 : a = true) (h2 : b = true) : (a && b) = true := by
  rw [h1, h2]
  rfl

theorem ballotPairs_mem : ∀ (b : Ballot), ∀ pq ∈ ballotPairs b, pq.1 ∈ b ∧ pq.2 ∈ b
  | e :: rest, pq, hpq => by
    rcases List.mem_append.mp hpq with h1 | h1
    · obtain ⟨f, hf, hpq2⟩ := List.mem_map.mp h1
      subst hpq2
      exact ⟨by simp, by simp [hf]⟩
    · have hh := ballotPairs_mem rest pq h1
      exact ⟨List.mem_cons.mpr (Or.inr hh.1), List.mem_cons.mpr (Or.inr hh.2)⟩

/-- A list with pairwise distinct candidate ids holds at most one entry with a
given id, so a keyed count collapses to an indicator. -/
theorem countP_key (key : Nat) (P : Nat × Rank → Bool) :
    ∀ l : Ballot, (l.map Prod.fst).Nodup →
      l.countP (fun f => (f.1 == key) && P f) =
        if l.any (fun f => (f.1 == key) && P f) then 1 else 0 := by
  intro l
  induction l with
  | nil => simp
  | cons g r ih =>
    intro hnd
    have hparts : g.1 ∉ r.map Prod.fst ∧ (r.map Prod.fst).Nodup := by
      simpa [List.nodup_cons] using hnd
    obtain ⟨hgn, hrnd⟩ := hparts
    rw [List.countP_cons, List.any_cons]
    by_cases hk : g.1 = key
    · have hmemr : ∀ f ∈ r, ((f.1 == key) && P f) = false := by
        intro f hf
        cases hc : ((f.1 == key) && P f) with
        | false => rfl
        | true =>
          exfalso
          have hfk : f.1 = key := beq_iff_eq.mp (and_true_split hc).1
          exact hgn (by rw [hk, ← hfk]; exact List.mem_map_of_mem _ hf)
      have hr0 : r.countP (fun f => (f.1 == key) && P f) = 0 :=
        List.countP_eq_zero.mpr (fun f hf hc => by rw [hmemr f hf] at hc; exact absurd hc (by simp))
      have hany : r.any (fun f => (f.1 == key) && P f) = false := by
        cases ha : r.any (fun f => (f.1 == key) && P f) with
        | false => rfl
        | true =>
          exfalso
          obtain ⟨f, hf, hc⟩ := List.any_eq_true.mp ha
          rw [hmemr f hf] at hc
          exact absurd hc (by simp)
      rw [hr0, hany]
      cases hp : ((g.1 == key) && P g) <;> simp
    · have hpg : ((g.1 == key) && P g) = false := by
        have hb : (g.1 == key) = false := by
          cases hc : (g.1 == key) with
          | false => rfl
          | true => exact absurd (beq_iff_eq.mp hc) hk
        rw [hb, Bool.false_and]
      rw [hpg, Bool.false_or]
      simp only [if_neg (by simp : ¬(false = true))]
      rw [ih hrnd]
      omega

theorem prefersOn_self_eq_false {b : Ballot} (hnd : (b.map Prod.fst).Nodup) (x : Nat) :
    prefersOn b x x = false := by
  cases hp : prefersOn b x x with
  | false => rfl
  | true =>
    exfalso
    obtain ⟨p, hp1, q, hq1, hpx, hqx, hlt⟩ := (prefersOn_iff b x x).mp hp
    have hpq : p = q := List.inj_on_of_nodup_map hnd hp1 hq1 (by rw [hpx, hqx])
    rw [hpq] at hlt
    exact lt_irrefl _ hlt

theorem countP_pairHit_self (x : Nat) (b : Ballot) (hnd : (b.map Prod.fst).Nodup) :
    (ballotPairs b).countP (pairHit x x) = 0 := by
  rw [List.countP_eq_zero]
  intro pq hpq hc
  obtain ⟨h1, h2⟩ := ballotPairs_mem b pq hpq
  unfold pairHit at hc
  rcases or_true_split hc with hbr | hbr
  · have e1 : pq.1.1 = x := beq_iff_eq.mp (and_true_split (and_true_split hbr).1).2
    have e2 : pq.2.1 = x := beq_iff_eq.mp (and_true_split hbr).2
    have hlt : pq.1.2 < pq.2.2 :=
      of_decide_eq_true (and_true_split (and_true_split hbr).1).1
    have heq : pq.1 = pq.2 := List.inj_on_of_nodup_map hnd h1 h2 (by rw [e1, e2])
    rw [heq] at hlt
    exact lt_irrefl _ hlt
  · have e1 : pq.2.1 = x := beq_iff_eq.mp (and_true_split (and_true_split hbr).1).2
    have e2 : pq.1.1 = x := beq_iff_eq.mp (and_true_split hbr).2
    have hlt : pq.2.2 < pq.1.2 :=
      of_decide_eq_true (and_true_split (and_true_split hbr).1).1
    have heq : pq.1 = pq.2 := List.inj_on_of_nodup_map hnd h1 h2 (by rw [e1, e2])
    rw [heq] at hlt
    exact lt_irrefl _ hlt

theorem countP_pairHit_ne (x y : Nat) (hxy : x ≠ y) :
    ∀ b : Ballot, (b.map Prod.fst).Nodup →
      (ballotPairs b).countP (pairHit x y) = if prefersOn b x y then 1 else 0 := by
  intro b
  induction b with
  | nil =>
    intro hnd
    simp [ballotPairs, prefersOn]
  | cons e rest ih =>
    intro hnd
    have hparts : e.1 ∉ rest.map Prod.fst ∧ (rest.map Prod.fst).Nodup := by
      simpa [List.nodup_cons] using hnd
    obtain ⟨hgn, hrnd⟩ := hparts
    show ((rest.map fun f => (e, f)) ++ ballotPairs rest).countP (pairHit x y) = _
    rw [List.countP_append, List.countP_map, ih hrnd]
    by_cases hex : e.1 = x
    · have hrest0 : prefersOn rest x y = false := by
        cases hp : prefersOn rest x y with
        | false => rfl
        | true =>
          exfalso
          obtain ⟨p, hp1, q, hq1, hpx, hqy, hlt⟩ := (prefersOn_iff rest x y).mp hp
          exact hgn (by rw [hex, ← hpx]; exact List.mem_map_of_mem _ hp1)
      have hterm1 : rest.countP ((pairHit x y) ∘ (fun f => (e, f))) =
          if rest.any (fun f => (f.1 == y) && decide (e.2 < f.2)) then 1 else 0 := by
        rw [List.countP_congr ?heq]
        · exact countP_key y (fun f => decide (e.2 < f.2)) rest hrnd
        case heq =>
          intro f hf
          have hfx : f.1 ≠ x := by
            intro hc
            exact hgn (by rw [hex, ← hc]; exact List.mem_map_of_mem _ hf)
          show pairHit x y (e, f) = true ↔ _
          unfold pairHit
          simp only [Bool.or_eq_true, Bool.and_eq_true, beq_iff_eq, decide_eq_true_eq]
          constructor
          · rintro (⟨⟨hlt, -⟩, hfy⟩ | ⟨⟨-, hfx2⟩, -⟩)
            · exact ⟨hfy, hlt⟩
            · exact absurd hfx2 hfx
          · rintro ⟨hfy, hlt⟩
            exact Or.inl ⟨⟨hlt, hex⟩, hfy⟩
      have hmain : prefersOn (e :: rest) x y = true ↔
          (rest.any fun f => (f.1 == y) && decide (e.2 < f.2)) = true := by
        rw [prefersOn_iff]
        simp only [List.any_eq_true, Bool.and_eq_true, beq_iff_eq, decide_eq_true_eq]
        constructor
        · rintro ⟨p, hp, q, hq, hpx, hqy, hlt⟩
          have hpe : p = e := by
            rcases List.mem_cons.mp hp with h | h
            · exact h
            · exact absurd (by rw [hex, ← hpx]; exact List.mem_map_of_mem _ h) hgn
          subst hpe
          have hqe : q ∈ rest := by
            rcases List.mem_cons.mp hq with h | h
            · exfalso
              apply hxy
              rw [← hpx, ← hqy, h]
            · exact h
          exact ⟨q, hqe, hqy, hlt⟩
        · rintro ⟨f, hf, hfy, hlt⟩
          exact ⟨e, by simp, f, by simp [hf], hex, hfy, hlt⟩
      rw [hterm1, hrest0, if_congr hmain rfl rfl]
      simp
    · by_cases hey : e.1 = y
      · have hrest0 : prefersOn rest x y = false := by
          cases hp : prefersOn rest x y with
          | false => rfl
          | true =>
            exfalso
            obtain ⟨p, hp1, q, hq1, hpx, hqy, hlt⟩ := (prefersOn_iff rest x y).mp hp
            exact hgn (by rw [hey, ← hqy]; exact List.mem_map_of_mem _ hq1)
        have hterm1 : rest.countP ((pairHit x y) ∘ (fun f => (e, f))) =
            if rest.any (fun f => (f.1 == x) && decide (f.2 < e.2)) then 1 else 0 := by
          rw [List.countP_congr ?heq]
          · exact countP_key x (fun f => decide (f.2 < e.2)) rest hrnd
          case heq =>
            intro f hf
            have hfy : f.1 ≠ y := by
              intro hc
              exact hgn (by rw [hey, ← hc]; exact List.mem_map_of_mem _ hf)
            show pairHit x y (e, f) = true ↔ _
            unfold pairHit
            simp only [Bool.or_eq_true, Bool.and_eq_true, beq_iff_eq, decide_eq_true_eq]
            constructor
            · rintro (⟨⟨-, hex2⟩, hfy2⟩ | ⟨⟨hlt, hfx⟩, -⟩)
              · exact absurd hex2 hex
              · exact ⟨hfx, hlt⟩
            · rintro ⟨hfx, hlt⟩
              exact Or.inr ⟨⟨hlt, hfx⟩, hey⟩
        have hmain : prefersOn (e :: rest) x y = true ↔
            (rest.any fun f => (f.1 == x) && decide (f.2 < e.2)) = true := by
          rw [prefersOn_iff]
          simp only [List.any_eq_true, Bool.and_eq_true, beq_iff_eq, decide_eq_true_eq]
          constructor
          · rintro ⟨p, hp, q, hq, hpx, hqy, hlt⟩
            have hqe : q = e := by
              rcases List.mem_cons.mp hq with h | h
              · exact h
              · exact absurd (by rw [hey, ← hqy]; exact List.mem_map_of_mem _ h) hgn
            subst hqe
            have hpe : p ∈ rest := by
              rcases List.mem_cons.mp hp with h | h
              · exfalso
                apply hex
                rw [h] at hpx
                exact hpx
              · exact h
            exact ⟨p, hpe, hpx, hlt⟩
          · rintro ⟨f, hf, hfx, hlt⟩
            exact ⟨f, by simp [hf], e, by simp, hfx, hey, hlt⟩
        rw [hterm1, hrest0, if_congr hmain rfl rfl]
        simp
      · have hterm1 : rest.countP ((pairHit x y) ∘ (fun f => (e, f))) = 0 := by
          rw [List.countP_eq_zero]
          intro f hf hc
          have hc2 : pairHit x y (e, f) = true := hc
          unfold pairHit at hc2
          rcases or_true_split hc2 with hbr | hbr
          · exact hex (beq_iff_eq.mp (and_true_split (and_true_split hbr).1).2)
          · exact hey (beq_iff_eq.mp (and_true_split hbr).2)
        have hmain : prefersOn (e :: rest) x y = true ↔ prefersOn rest x y = true := by
          rw [prefersOn_iff, prefersOn_iff]
          constructor
          · rintro ⟨p, hp, q, hq, hpx, hqy, hlt⟩
            have hpe : p ∈ rest := by
              rcases List.mem_cons.mp hp with h | h
              · exact absurd (by rw [← hpx, h] : e.1 = x) hex
              · exact h
            have hqe : q ∈ rest := by
              rcases List.mem_cons.mp hq with h | h
              · exact absurd (by rw [← hqy, h] : e.1 = y) hey
              · exact h
            exact ⟨p, hpe, q, hqe, hpx, hqy, hlt⟩
          · rintro ⟨p, hp, q, hq, hpx, hqy, hlt⟩
            exact ⟨p, by simp [hp], q, by simp [hq], hpx, hqy, hlt⟩
        rw [hterm1, if_congr hmain rfl rfl]
        omega

/-- Each valid ballot contributes to cell `(x, y)` exactly once when it ranks
`x` strictly above `y`, and not at all otherwise. -/
theorem countP_pairHit (x y : Nat) (b : Ballot) (hnd : (b.map Prod.fst).Nodup) :
    (ballotPairs b).countP (pairHit x y) = if prefersOn b x y then 1 else 0 := by
  by_cases hxy : x = y
  · subst hxy
    rw [countP_pairHit_self x b hnd, prefersOn_self_eq_false hnd x]
    simp
  · exact countP_pairHit_ne x y hxy b hnd

theorem getM_count_ballot {m : Mat} {n : Nat} (h : SquareM m n) {b : Ballot}
    (hb : ∀ p ∈ b, p.1 < n) (hnd : (b.map Prod.fst).Nodup) (x y : Nat) :
    getM (count_ballot m b) x y = getM m x y + (if prefersOn b x y then 1 else 0) := by
  unfold count_ballot
  rw [getM_countPairs (ballotPairs b) m h
    (fun pq hpq => ⟨hb _ (ballotPairs_mem b pq hpq).1, hb _ (ballotPairs_mem b pq hpq).2⟩) x y,
    countP_pairHit x y b hnd]
  split <;> simp

theorem getM_fold_count {n : Nat} :
    ∀ (l : List Ballot) (m : Mat), SquareM m n →
      (∀ b ∈ l, (b.map Prod.fst).Nodup ∧ ∀ p ∈ b, p.1 < n) → ∀ x y,
      getM (l.foldl count_ballot m) x y =
        getM m x y + (l.countP (fun b => prefersOn b x y) : Int) := by
  intro l
  induction l with
  | nil =>
    intro m hm hl x y
    simp
  | cons b l ih =>
    intro m hm hl x y
    obtain ⟨hnd, hb⟩ := hl b (by simp)
    rw [List.foldl_cons, ih (count_ballot m b) (squareM_count_ballot hm b)
      (fun c hc => hl c (by simp [hc])) x y,
      getM_count_ballot hm hb hnd x y, List.countP_cons]
    push_cast
    omega

/-- Cell characterization of `PairwisePreferences::from_ballots` on valid
ballots: cell `(x, y)` counts the ballots ranking `x` strictly above `y`. -/
theorem from_ballots_cells (votes : List Ballot)
    (hval : ∀ b ∈ votes, valid_ballot b = true) (x y : Nat) :
    getM (from_ballots votes) x y = (votes.countP (fun b => prefersOn b x y) : Int) := by
  unfold from_ballots
  rw [getM_fold_count votes (zeroMat (highest_id votes + 1)) (squareM_zeroMat _)
    (fun b hb => ⟨(valid_ballot_iff b).mp (hval b hb),
      fun p hp => Nat.lt_succ_of_le (le_highest_id hb hp)⟩) x y,
    getM_zeroMat]
  omega

/-- C7: for every collection of valid ballots, `PairwisePreferences::from_ballots`
builds a square matrix of dimension `N = 1 + highest candidate handle`, and cell
`(x, y)` equals the number of ballots on which candidate `x` has a strictly
smaller rank than candidate `y`; ballots ranking the two equally, or omitting
either one, are counted in neither cell. -/
theorem claim_c7 (votes : List Ballot) (hval : ∀ b ∈ votes, valid_ballot b = true) :
    (from_ballots votes).length = highest_id votes + 1 ∧
    SquareM (from_ballots votes) (highest_id votes + 1) ∧
    ∀ x y, getM (from_ballots votes) x y =
      (votes.countP (fun b => prefersOn b x y) : Int) :=
  ⟨(squareM_from_ballots votes).1, squareM_from_ballots votes,
    from_ballots_cells votes hval⟩

theorem claim_c7_witness :
    (from_ballots [[(0, 1), (1, 2)], [(0, 3), (1, 3)]]).length = 2 ∧
    getM (from_ballots [[(0, 1), (1, 2)], [(0, 3), (1, 3)]]) 0 1 = 1 := by
  have h := claim_c7 [[(0, 1), (1, 2)], [(0, 3), (1, 3)]] (by decide)
  refine ⟨h.1, ?_⟩
  rw [h.2.2 0 1]
  decide

/-- C9: on a nonempty square i32 matrix every diagonal entry of the widest-path
matrix equals `i32::MAX` (the hypothesis `BoundedM W n i32MAX` states that the
entries lie in the i32 range, which holds of every `Vec<Vec<i32>>`), and the
empty matrix maps to the empty matrix. -/
theorem claim_c9 (W : Mat) (n : Nat) :
    floyd_warshall_widest_paths [] = [] ∧
    (SquareM W n → 0 < n → BoundedM W n i32MAX →
      ∀ a, a < n → getM (floyd_warshall_widest_paths W) a a = i32MAX) := by
  refine ⟨rfl, fun h hn hb a ha => ?_⟩
  rw [fw_eq h (by omega)]
  exact diagMaxM_fwIter (squareM_initDiag h n) (diagMaxM_initDiag h)
    (boundedM_initDiag h le_rfl hb) n le_rfl a ha

theorem claim_c9_witness : getM (floyd_warshall_widest_paths [[5]]) 0 0 = i32MAX := by
  refine (claim_c9 [[5]] 1).2 ⟨rfl, by simp⟩ Nat.one_pos ?_ 0 Nat.one_pos
  intro a b ha hb
  have ha0 : a = 0 := by omega
  have hb0 : b = 0 := by omega
  subst ha0
  subst hb0
  decide

/-- C3: the widest-path matrix never underestimates the bottleneck capacity of
any simple path: for a path `v0 :: .. :: vk` with all vertices in range, the
entry `(v0, vk)` of the output is at least the minimum edge weight along the
path (`pathWidth` starts from `i32::MAX` and folds `min` over the edges,
exactly as the property test in the source computes it). -/
theorem claim_c3 {W : Mat} {n : Nat} (h : SquareM W n) (p : List Nat)
    (hne : p ≠ []) (hnd : p.Nodup) (hv : ∀ v ∈ p, v < n) :
    pathWidth W p ≤
      getM (floyd_warshall_widest_paths W) (p.head hne) (p.getLast hne) := by
  obtain ⟨a, rest, hp⟩ := List.exists_cons_of_ne_nil hne
  subst hp
  have ha : a < n := hv a (by simp)
  have hn : n ≠ 0 := by omega
  rw [fw_eq h hn]
  rcases List.eq_nil_or_concat rest with hr | ⟨mid, b, hr⟩
  · subst hr
    simp only [List.head_cons, List.getLast_singleton]
    have h1 := getM_fwIter_ge (squareM_initDiag h n) n le_rfl a a
    rw [getM_initDiag h a a, if_pos ⟨rfl, ha⟩] at h1
    calc pathWidth W [a] = i32MAX := pathWidth_single W a
    _ ≤ _ := h1
  · rw [List.concat_eq_append] at hr
    subst hr
    have hb : b < n := hv b (by simp)
    have hlast : (a :: (mid ++ [b])).getLast (by simp) = b := by simp
    simp only [List.head_cons, hlast]
    exact fwIter_ge_pathWidth h n le_rfl a b mid (by simpa using hnd) ha hb
      (fun v hv2 => hv v (by simp [hv2])) (fun v hv2 => by
        have := hv v (by simp [hv2])
        omega)

theorem claim_c3_witness :
    pathWidth [[0, 5], [0, 0]] [0, 1] ≤
      getM (floyd_warshall_widest_paths [[0, 5], [0, 0]]) 0 1 :=
  claim_c3 ⟨rfl, by simp⟩ [0, 1] (by simp) (by decide) (by decide)

/-! ## Schulze method

`schulze_method` and `schulze_method_single` from `schulze_method.rs`, and the
winner-search `schulze_method` of `lib.rs` (embedded as `schulze_method_lib`).
Panics (`assert!`, `expect`, `unreachable!`) are modelled as `Except.error`. -/

/-- `preferred_above_count`: for the given candidate, count the challengers
`other` with `preferences[candidate][other] >= preferences[other][candidate]`,
skipping the candidate itself. -/
def preferred_above_count (preferences : Mat) (candidate : Nat) : Nat :=
  (List.range preferences.length).countP fun other =>
    !(candidate == other) &&
      decide (getM preferences other candidate ≤ getM preferences candidate other)

/-- `preferred_to_all_others` from `lib.rs`: no other candidate is strictly
preferred over this one under the widest-path comparison. -/
def preferred_to_all_others (preferences : Mat) (candidate : Nat) : Bool :=
  (List.range preferences.length).all fun other =>
    (candidate == other) ||
      decide (getM preferences other candidate ≤ getM preferences candidate other)

/-- Insertion step of a stable ascending sort by key: the new element passes
every element with a strictly smaller key and stops before the first element
with an equal or greater key, so elements with equal keys keep their original
relative order. `Vec::sort_by_key` is exactly the stable ascending sort, and
the stable ascending sort of a list is unique, so this insertion sort is
extensionally the sort the source performs. -/
def insertByKey (key : Nat → Nat) (x : Nat) : List Nat → List Nat
  | [] => [x]
  | y :: ys => if key y < key x then y :: insertByKey key x ys else x :: y :: ys

/-- Stable ascending sort by key (model of `sort_by_key`). -/
def sortByKey (key : Nat → Nat) : List Nat → List Nat
  | [] => []
  | x :: xs => insertByKey key x (sortByKey key xs)

/-- Error outcomes of the Schulze entry points: `invalidBallot` models the
`assert!(valid_ballot(..))` panic, `noCandidates` the `expect`/`unreachable!`
branches. -/
inductive SchulzeErr
  | invalidBallot
  | noCandidates
deriving DecidableEq

/-- The ranking computed by `schulze_method` after validation: pairwise
preferences, widest paths, candidates sorted ascending by
`preferred_above_count` and reversed. -/
def schulze_ranking (votes : List Ballot) : List Nat :=
  let count := from_ballots votes
  let widest := floyd_warshall_widest_paths count
  (sortByKey (fun c => preferred_above_count widest c) (List.range count.length)).reverse

/-- `schulze_method` (ranking version, `schulze_method.rs`). -/
def schulze_method (votes : List Ballot) : Except SchulzeErr (List Nat) :=
  if votes.all valid_ballot then Except.ok (schulze_ranking votes)
  else Except.error SchulzeErr.invalidBallot

/-- `schulze_method_single`: first element of the ranking; the `expect` panic
on an empty ranking is the `noCandidates` error. -/
def schulze_method_single (votes : List Ballot) : Except SchulzeErr Nat :=
  match schulze_method votes with
  | Except.error e => Except.error e
  | Except.ok r =>
    match r.head? with
    | some c => Except.ok c
    | none => Except.error SchulzeErr.noCandidates

/-- `schulze_method` from `lib.rs`: return the first candidate preferred to
all others; the `unreachable!` branch is the `noCandidates` error. -/
def schulze_method_lib (votes : List Ballot) : Except SchulzeErr Nat :=
  if votes.all valid_ballot then
    let count := from_ballots votes
    let widest := floyd_warshall_widest_paths count
    match (List.range count.length).find? (fun c => preferred_to_all_others widest c) with
    | some c => Except.ok c
    | none => Except.error SchulzeErr.noCandidates
  else Except.error SchulzeErr.invalidBallot

theorem insertByKey_perm (key : Nat → Nat) (x : Nat) :
    ∀ l : List Nat, List.Perm (insertByKey key x l) (x :: l)
  | [] => List.Perm.refl _
  | y :: ys => by
    unfold insertByKey
    split
    · exact ((insertByKey_perm key x ys).cons y).trans (List.Perm.swap x y ys)
    · exact List.Perm.refl _

theorem sortByKey_perm (key : Nat → Nat) :
    ∀ l : List Nat, List.Perm (sortByKey key l) l
  | [] => List.Perm.refl _
  | x :: xs => (insertByKey_perm key x (sortByKey key xs)).trans ((sortByKey_perm key xs).cons x)

theorem insertByKey_sorted (key : Nat → Nat) (x : Nat) :
    ∀ l : List Nat, l.Pairwise (fun a b => key a ≤ key b) →
      (insertByKey key x l).Pairwise (fun a b => key a ≤ key b)
  | [], _ => List.pairwise_singleton ..
  | y :: ys, h => by
    rw [List.pairwise_cons] at h
    obtain ⟨hy, hys⟩ := h
    unfold insertByKey
    split
    · rename_i hyx
      rw [List.pairwise_cons]
      refine ⟨fun b hb => ?_, insertByKey_sorted key x ys hys⟩
      rcases List.mem_cons.mp ((insertByKey_perm key x ys).mem_iff.mp hb) with h1 | h1
      · subst h1
        omega
      · exact hy b h1
    · rename_i hyx
      rw [List.pairwise_cons]
      refine ⟨fun b hb => ?_, List.pairwise_cons.mpr ⟨hy, hys⟩⟩
      rcases List.mem_cons.mp hb with h1 | h1
      · subst h1
        omega
      · have h2 := hy b h1
        omega

theorem sortByKey_sorted (key : Nat → Nat) :
    ∀ l : List Nat, (sortByKey key l).Pairwise (fun a b => key a ≤ key b)
  | [] => List.Pairwise.nil
  | x :: xs => insertByKey_sorted key x (sortByKey key xs) (sortByKey_sorted key xs)

/-- C10: whenever `schulze_method` returns a ranking, that ranking is a
permutation of the full candidate universe `0 .. highest_id + 1`: it has
length `N = 1 + highest handle` and lists every handle exactly once,
including handles never mentioned on any ballot. -/
theorem claim_c10 (votes : List Ballot) (r : List Nat)
    (h : schulze_method votes = Except.ok r) :
    List.Perm r (List.range (highest_id votes + 1)) := by
  unfold schulze_method at h
  split at h
  · have hr : r = schulze_ranking votes := (Except.ok.injEq .. ▸ h).symm
    subst hr
    unfold schulze_ranking
    have hlen : (from_ballots votes).length = highest_id votes + 1 :=
      (squareM_from_ballots votes).1
    dsimp only
    rw [hlen]
    exact (List.reverse_perm _).trans (sortByKey_perm _ _)
  · exact absurd h (by simp)

theorem claim_c10_witness : List.Perm [0, 1] (List.range 2) :=
  claim_c10 [[(0, 1), (1, 2)]] [0, 1] (by rfl)

/-- C1: for a nonempty collection of valid ballots, with `N = highest_id + 1`,
some candidate `c < N` satisfies `widest[c][d] >= widest[d][c]` against every
other candidate `d < N`, and consequently the winner search of `lib.rs`
returns a candidate instead of reaching its `unreachable!` branch. -/
theorem claim_c1 (votes : List Ballot) (hne : votes ≠ [])
    (hval : ∀ b ∈ votes, valid_ballot b = true) :
    (∃ c, c < highest_id votes + 1 ∧ ∀ d, d < highest_id votes + 1 → d ≠ c →
      getM (floyd_warshall_widest_paths (from_ballots votes)) d c ≤
      getM (floyd_warshall_widest_paths (from_ballots votes)) c d) ∧
    ∃ w, schulze_method_lib votes = Except.ok w := by
  have hsq := squareM_from_ballots votes
  have htri := triM_fw hsq (by omega)
  obtain ⟨c, hc, hcb⟩ := exists_unbeaten htri (by omega)
  refine ⟨⟨c, hc, hcb⟩, ?_⟩
  have hwlen : (floyd_warshall_widest_paths (from_ballots votes)).length =
      highest_id votes + 1 := (squareM_fw hsq).1
  have hpred : preferred_to_all_others
      (floyd_warshall_widest_paths (from_ballots votes)) c = true := by
    unfold preferred_to_all_others
    rw [List.all_eq_true]
    intro other hother
    have hon : other < highest_id votes + 1 := by
      rw [hwlen] at hother
      exact List.mem_range.mp hother
    by_cases hoc : c = other
    · simp [hoc]
    · have := hcb other hon (fun hc2 => hoc hc2.symm)
      simp [this]
  have hfind : ((List.range (from_ballots votes).length).find?
      (fun x => preferred_to_all_others
        (floyd_warshall_widest_paths (from_ballots votes)) x)).isSome := by
    rw [List.find?_isSome]
    refine ⟨c, ?_, hpred⟩
    rw [List.mem_range, hsq.1]
    exact hc
  obtain ⟨w, hw⟩ := Option.isSome_iff_exists.mp hfind
  refine ⟨w, ?_⟩
  unfold schulze_method_lib
  rw [if_pos (List.all_eq_true.mpr hval)]
  simp only [hw]

theorem claim_c1_witness : ∃ w, schulze_method_lib [[(0, 1), (1, 2)]] = Except.ok w :=
  (claim_c1 [[(0, 1), (1, 2)]] (by simp) (by decide)).2

/-- C5 counterexample: on the empty ballot collection neither `schulze_method`
nor `schulze_method_single` fails; both return normally (the candidate
universe defaults to the single handle `0` because `highest_id` of no ballots
is `0`), contradicting the claim that an empty ballot set is rejected. -/
theorem claim_c5_counterexample :
    schulze_method [] = Except.ok [0] ∧
    schulze_method_single [] = Except.ok 0 ∧
    schulze_method_lib [] = Except.ok 0 := by
  refine ⟨?_, ?_, ?_⟩ <;> rfl

/-- C5 amended: the three Schulze entry points fail with the precondition
violation (the `assert!(valid_ballot(..))` panic) whenever some input ballot
is invalid; an empty ballot set is not rejected (see the counterexample). -/
theorem claim_c5_amended (votes : List Ballot)
    (hinv : ∃ b ∈ votes, valid_ballot b = false) :
    schulze_method votes = Except.error SchulzeErr.invalidBallot ∧
    schulze_method_single votes = Except.error SchulzeErr.invalidBallot ∧
    schulze_method_lib votes = Except.error SchulzeErr.invalidBallot := by
  obtain ⟨b, hb, hbf⟩ := hinv
  have hall : votes.all valid_ballot = false := by
    cases hc : votes.all valid_ballot with
    | false => rfl
    | true =>
      exfalso
      have := List.all_eq_true.mp hc b hb
      rw [hbf] at this
      exact absurd this (by simp)
  have h1 : schulze_method votes = Except.error SchulzeErr.invalidBallot := by
    unfold schulze_method
    rw [hall]
    rfl
  refine ⟨h1, ?_, ?_⟩
  · unfold schulze_method_single
    rw [h1]
  · unfold schulze_method_lib
    rw [hall]
    rfl

theorem claim_c5_amended_witness :
    schulze_method [[(0, 1), (0, 2)]] = Except.error SchulzeErr.invalidBallot ∧
    schulze_method_single [[(0, 1), (0, 2)]] = Except.error SchulzeErr.invalidBallot ∧
    schulze_method_lib [[(0, 1), (0, 2)]] = Except.error SchulzeErr.invalidBallot :=
  claim_c5_amended [[(0, 1), (0, 2)]] ⟨[(0, 1), (0, 2)], by simp, by decide⟩

/-! ## Ranking order of unanimously compared candidates (claim C2) -/

/-- The ballot mentions the candidate. -/
def mentions (b : Ballot) (x : Nat) : Bool := b.any (fun p => p.1 == x)

/-- Candidate `a` appears at a strictly earlier position than `b`. -/
def earlierIn (l : List Nat) (a b : Nat) : Prop := l.indexOf a < l.indexOf b

theorem indexOf_lt_of_pairwise {R : Nat → Nat → Prop} {l : List Nat}
    (hp : l.Pairwise R) {a b : Nat} (ha : a ∈ l) (hb : b ∈ l)
    (hne : a ≠ b) (hnR : ¬ R b a) : l.indexOf a < l.indexOf b := by
  have hal : l.indexOf a < l.length := List.indexOf_lt_length.mpr ha
  have hbl : l.indexOf b < l.length := List.indexOf_lt_length.mpr hb
  rcases Nat.lt_trichotomy (l.indexOf a) (l.indexOf b) with h | h | h
  · exact h
  · exfalso
    apply hne
    have e1 : l[l.indexOf a]? = some a := by
      rw [List.getElem?_eq_getElem hal, List.getElem_indexOf hal]
    have e2 : l[l.indexOf b]? = some b := by
      rw [List.getElem?_eq_getElem hbl, List.getElem_indexOf hbl]
    rw [h, e2] at e1
    exact (Option.some.inj e1).symm
  · exfalso
    apply hnR
    have hR := (List.pairwise_iff_getElem.mp hp) _ _ hbl hal h
    rw [List.getElem_indexOf hal, List.getElem_indexOf hbl] at hR
    exact hR

/-- On a ballot with distinct candidate handles, strict rank preference is
transitive. -/
theorem prefersOn_trans {b : Ballot} (hnd : (b.map Prod.fst).Nodup) {x y z : Nat}
    (h1 : prefersOn b x y = true) (h2 : prefersOn b y z = true) :
    prefersOn b x z = true := by
  obtain ⟨p, hp, q, hq, hpx, hqy, hlt1⟩ := (prefersOn_iff b x y).mp h1
  obtain ⟨p2, hp2, q2, hq2, hp2y, hq2z, hlt2⟩ := (prefersOn_iff b y z).mp h2
  have hqp2 : q = p2 := List.inj_on_of_nodup_map hnd hq hp2 (by rw [hqy, hp2y])
  refine (prefersOn_iff b x z).mpr ⟨p, hp, q2, hq2, hpx, hq2z, ?_⟩
  rw [hqp2] at hlt1
  exact hlt1.trans hlt2

/-- All off-diagonal in-range entries bounded above by `V`. -/
def OffBoundM (m : Mat) (n : Nat) (V : Int) : Prop :=
  ∀ x y, x < n → y < n → x ≠ y → getM m x y ≤ V

theorem offBoundM_fwPass {m : Mat} {n : Nat} {V : Int} (h : SquareM m n)
    (hb : OffBoundM m n V) {k : Nat} (hk : k < n) : OffBoundM (fwPass k n m) n V := by
  intro x y hx hy hxy
  rw [getM_fwPass h hk x y, if_pos ⟨hx, hy⟩]
  have h1 := hb x y hx hy hxy
  by_cases hkx : k = x
  · subst hkx
    have h2 := min_le_right (getM m k k) (getM m k y)
    omega
  · by_cases hky : k = y
    · subst hky
      have h2 := min_le_left (getM m x k) (getM m k k)
      omega
    · have h2 := hb x k hx hk (fun hc => hkx hc.symm)
      have h3 := hb k y hk hy hky
      omega

theorem offBoundM_fwIter {m : Mat} {n : Nat} {V : Int} (h : SquareM m n)
    (hb : OffBoundM m n V) : ∀ t, t ≤ n → OffBoundM (fwIter n m t) n V := by
  intro t
  induction t with
  | zero => exact fun _ => hb
  | succ t ih =>
    intro ht
    exact offBoundM_fwPass (squareM_fwIter h n t) (ih (by omega)) (by omega)

/-- Unanimous edge: all `V` ballots prefer `x` to `y` (`V` is the cell value). -/
def edgeAll (counts : Mat) (V : Int) (x y : Nat) : Prop := getM counts x y = V

theorem reach_fwPass {counts m : Mat} {V : Int} {n : Nat} (h : SquareM m n) {k : Nat}
    (hk : k < n)
    (hr : ∀ x y, x < n → y < n → V ≤ getM m x y →
      Relation.ReflTransGen (edgeAll counts V) x y) :
    ∀ x y, x < n → y < n → V ≤ getM (fwPass k n m) x y →
      Relation.ReflTransGen (edgeAll counts V) x y := by
  intro x y hx hy hge
  rw [getM_fwPass h hk x y, if_pos ⟨hx, hy⟩] at hge
  rcases le_max_iff.mp hge with h1 | h1
  · exact hr x y hx hy h1
  · obtain ⟨h2, h3⟩ := le_min_iff.mp h1
    exact (hr x k hx hk h2).trans (hr k y hk hy h3)

theorem reach_fwIter {counts m : Mat} {V : Int} {n : Nat} (h : SquareM m n)
    (hinit : ∀ x y, x < n → y < n → V ≤ getM m x y →
      Relation.ReflTransGen (edgeAll counts V) x y) :
    ∀ t, t ≤ n → ∀ x y, x < n → y < n → V ≤ getM (fwIter n m t) x y →
      Relation.ReflTransGen (edgeAll counts V) x y := by
  intro t
  induction t with
  | zero => exact fun _ => hinit
  | succ t ih =>
    intro ht
    exact reach_fwPass (squareM_fwIter h n t) (by omega) (ih (by omega))

theorem reach_init {counts : Mat} {n : Nat} {V : Int} (h : SquareM counts n)
    (hob : OffBoundM counts n V) :
    ∀ x y, x < n → y < n → V ≤ getM (initDiag n counts) x y →
      Relation.ReflTransGen (edgeAll counts V) x y := by
  intro x y hx hy hge
  by_cases hxy : x = y
  · subst hxy
    exact Relation.ReflTransGen.refl
  · rw [getM_initDiag h x y, if_neg (by tauto)] at hge
    have h1 := hob x y hx hy hxy
    exact Relation.ReflTransGen.single (show getM counts x y = V by omega)

set_option maxRecDepth 4000 in
/-- C2 counterexample: the claim fails as stated. In this seven-ballot
election every ballot mentioning both candidates `0` and `1` (there is one,
the first) ranks `0` strictly ahead of `1`, yet `schulze_method` returns the
ranking `[1, 2, 0]`, which places `1` (position 0) strictly ahead of `0`
(position 2): ballots mentioning only one of the two give `1` a stronger
widest path against `0`. The statement is closed; the quantifiers over the
seven ballots are expressed with `List.all`/`List.any`. -/
theorem claim_c2_counterexample :
    ([[(0, 1), (1, 2)],
      [(1, 1), (2, 2)], [(1, 1), (2, 2)], [(1, 1), (2, 2)],
      [(2, 1), (0, 2)], [(2, 1), (0, 2)], [(2, 1), (0, 2)]] : List Ballot).all
        valid_ballot = true ∧
    ([[(0, 1), (1, 2)],
      [(1, 1), (2, 2)], [(1, 1), (2, 2)], [(1, 1), (2, 2)],
      [(2, 1), (0, 2)], [(2, 1), (0, 2)], [(2, 1), (0, 2)]] : List Ballot).any
        (fun b => mentions b 0 && mentions b 1) = true ∧
    ([[(0, 1), (1, 2)],
      [(1, 1), (2, 2)], [(1, 1), (2, 2)], [(1, 1), (2, 2)],
      [(2, 1), (0, 2)], [(2, 1), (0, 2)], [(2, 1), (0, 2)]] : List Ballot).all
        (fun b => !(mentions b 0 && mentions b 1) || prefersOn b 0 1) = true ∧
    schulze_method [[(0, 1), (1, 2)],
      [(1, 1), (2, 2)], [(1, 1), (2, 2)], [(1, 1), (2, 2)],
      [(2, 1), (0, 2)], [(2, 1), (0, 2)], [(2, 1), (0, 2)]] =
      Except.ok [1, 2, 0] ∧
    ¬ earlierIn [1, 2, 0] 0 1 := by
  refine ⟨by decide, by decide, by decide, by rfl, ?_⟩
  unfold earlierIn
  decide

/-- C2 amended: the conclusion survives when the unanimity is over the whole
electorate: if the ballot collection is nonempty, every ballot is valid, and
every ballot mentions both `A` and `B` with `A` ranked strictly ahead of `B`
(that is, `prefersOn b A B` for every ballot `b`), then `schulze_method`
succeeds and its ranking places `A` at a strictly earlier position than `B`. -/
theorem claim_c2_amended (votes : List Ballot) (A B : Nat) (hABne : A ≠ B)
    (hne : votes ≠ []) (hval : ∀ b ∈ votes, valid_ballot b = true)
    (hall : ∀ b ∈ votes, prefersOn b A B = true) :
    ∃ r, schulze_method votes = Except.ok r ∧ earlierIn r A B := by
  obtain ⟨b0, hb0⟩ := List.exists_mem_of_ne_nil votes hne
  have hvb0 : (b0.map Prod.fst).Nodup := (valid_ballot_iff b0).mp (hval b0 hb0)
  have hsq := squareM_from_ballots votes
  have hcells := from_ballots_cells votes hval
  have hprefAB : prefersOn b0 A B = true := hall b0 hb0
  obtain ⟨p, hp, q, hq, hpA, hqB, hpq⟩ := (prefersOn_iff b0 A B).mp hprefAB
  have hAn : A < highest_id votes + 1 := by
    have h1 := le_highest_id hb0 hp
    rw [hpA] at h1
    omega
  have hBn : B < highest_id votes + 1 := by
    have h1 := le_highest_id hb0 hq
    rw [hqB] at h1
    omega
  have hn0 : highest_id votes + 1 ≠ 0 := by omega
  have hcAB : getM (from_ballots votes) A B = (votes.length : Int) := by
    rw [hcells A B, List.countP_eq_length.mpr (fun b hb => hall b hb)]
  have hprefBA : ∀ b ∈ votes, prefersOn b B A = false := by
    intro b hb
    cases hc : prefersOn b B A with
    | false => rfl
    | true =>
      exfalso
      have hvb : (b.map Prod.fst).Nodup := (valid_ballot_iff b).mp (hval b hb)
      have h2 := prefersOn_trans hvb (hall b hb) hc
      rw [prefersOn_self_eq_false hvb A] at h2
      exact absurd h2 (by simp)
  have hoff : OffBoundM (from_ballots votes) (highest_id votes + 1) (votes.length : Int) := by
    intro x y hx hy hxy
    rw [hcells x y]
    exact_mod_cast List.countP_le_length _
  have hwAB : (votes.length : Int) ≤
      getM (floyd_warshall_widest_paths (from_ballots votes)) A B := by
    have h1 := getM_fw_ge_init hsq hn0 A B
    rw [getM_initDiag hsq A B, if_neg (by tauto)] at h1
    omega
  have hwoff : OffBoundM (floyd_warshall_widest_paths (from_ballots votes))
      (highest_id votes + 1) (votes.length : Int) := by
    rw [fw_eq hsq hn0]
    refine offBoundM_fwIter (squareM_initDiag hsq _) ?_ _ le_rfl
    intro x y hx hy hxy
    rw [getM_initDiag hsq x y, if_neg (by tauto)]
    exact hoff x y hx hy hxy
  have hwBA : getM (floyd_warshall_widest_paths (from_ballots votes)) B A <
      (votes.length : Int) := by
    by_contra hcon
    push_neg at hcon
    rw [fw_eq hsq hn0] at hcon
    have hreach := reach_fwIter (squareM_initDiag hsq _)
      (reach_init hsq hoff) _ le_rfl B A hBn hAn hcon
    have hchain : ∀ {x y : Nat},
        Relation.ReflTransGen (edgeAll (from_ballots votes) (votes.length : Int)) x y →
        x = y ∨ prefersOn b0 x y = true := by
      intro x y hxy
      induction hxy with
      | refl => exact Or.inl rfl
      | tail hsteps hedge ih =>
        rename_i mm yy
        have hedgepref : ∀ u v, edgeAll (from_ballots votes) (votes.length : Int) u v →
            prefersOn b0 u v = true := by
          intro u v he
          have hcnt : (votes.countP (fun b => prefersOn b u v) : Int) = (votes.length : Int) := by
            rw [← hcells u v]
            exact he
          have hcnt2 : votes.countP (fun b => prefersOn b u v) = votes.length := by
            exact_mod_cast hcnt
          exact List.countP_eq_length.mp hcnt2 b0 hb0
        rcases ih with rfl | hpref
        · exact Or.inr (hedgepref _ _ hedge)
        · exact Or.inr (prefersOn_trans hvb0 hpref (hedgepref _ _ hedge))
    rcases hchain hreach with heq | hpref
    · exact hABne heq.symm
    · have h2 := prefersOn_trans hvb0 hprefAB hpref
      rw [prefersOn_self_eq_false hvb0 A] at h2
      exact absurd h2 (by simp)
  have htri := triM_fw hsq hn0
  have hwlen : (floyd_warshall_widest_paths (from_ballots votes)).length =
      highest_id votes + 1 := (squareM_fw hsq).1
  have hBtoA : ∀ d ∈ List.range (highest_id votes + 1),
      (!(B == d) && decide
        (getM (floyd_warshall_widest_paths (from_ballots votes)) d B ≤
         getM (floyd_warshall_widest_paths (from_ballots votes)) B d)) = true →
      (!(A == d) && decide
        (getM (floyd_warshall_widest_paths (from_ballots votes)) d A ≤
         getM (floyd_warshall_widest_paths (from_ballots votes)) A d)) = true := by
    intro d hd hpred
    have hdn : d < highest_id votes + 1 := List.mem_range.mp hd
    obtain ⟨hne1, hle1⟩ := and_true_split hpred
    have hBd : B ≠ d := by
      intro hc
      rw [hc] at hne1
      simp at hne1
    have hwd : getM (floyd_warshall_widest_paths (from_ballots votes)) d B ≤
        getM (floyd_warshall_widest_paths (from_ballots votes)) B d :=
      of_decide_eq_true hle1
    by_cases hdA : d = A
    · exfalso
      rw [hdA] at hwd
      omega
    · have hBdoff := hwoff B d hBn hdn hBd
      have hdAoff := hwoff d A hdn hAn hdA
      have ht1 := htri B hBn A d hAn hdn
      have ht2 := htri A hAn d B hdn hBn
      have hAd : ¬ A = d := fun hc => hdA hc.symm
      exact and_true_join (by simp [hAd]) (decide_eq_true (by omega))
  have hpredAB : (!(A == B) && decide
      (getM (floyd_warshall_widest_paths (from_ballots votes)) B A ≤
       getM (floyd_warshall_widest_paths (from_ballots votes)) A B)) = true := by
    exact and_true_join (by simp [hABne]) (decide_eq_true (by omega))
  have hpredBB : (!(B == B) && decide
      (getM (floyd_warshall_widest_paths (from_ballots votes)) B B ≤
       getM (floyd_warshall_widest_paths (from_ballots votes)) B B)) = false := by
    simp
  have hscore : preferred_above_count (floyd_warshall_widest_paths (from_ballots votes)) B <
      preferred_above_count (floyd_warshall_widest_paths (from_ballots votes)) A := by
    unfold preferred_above_count
    rw [hwlen]
    obtain ⟨l1, l2, hsplit⟩ :=
      List.append_of_mem (List.mem_range.mpr hBn)
    have hpredBB2 : ¬ ((fun other => !(B == other) && decide
        (getM (floyd_warshall_widest_paths (from_ballots votes)) other B ≤
         getM (floyd_warshall_widest_paths (from_ballots votes)) B other)) B = true) := by
      intro hc
      simp at hc
    rw [hsplit, List.countP_append, List.countP_append,
      List.countP_cons_of_pos (fun other => !(A == other) && decide
        (getM (floyd_warshall_widest_paths (from_ballots votes)) other A ≤
         getM (floyd_warshall_widest_paths (from_ballots votes)) A other)) l2 hpredAB,
      List.countP_cons_of_neg (fun other => !(B == other) && decide
        (getM (floyd_warshall_widest_paths (from_ballots votes)) other B ≤
         getM (floyd_warshall_widest_paths (from_ballots votes)) B other)) l2 hpredBB2]
    have hm1 : l1.countP (fun other => !(B == other) && decide
          (getM (floyd_warshall_widest_paths (from_ballots votes)) other B ≤
           getM (floyd_warshall_widest_paths (from_ballots votes)) B other)) ≤
        l1.countP (fun other => !(A == other) && decide
          (getM (floyd_warshall_widest_paths (from_ballots votes)) other A ≤
           getM (floyd_warshall_widest_paths (from_ballots votes)) A other)) := by
      refine List.countP_mono_left (fun d hd => hBtoA d ?_)
      rw [hsplit]
      simp [hd]
    have hm2 : l2.countP (fun other => !(B == other) && decide
          (getM (floyd_warshall_widest_paths (from_ballots votes)) other B ≤
           getM (floyd_warshall_widest_paths (from_ballots votes)) B other)) ≤
        l2.countP (fun other => !(A == other) && decide
          (getM (floyd_warshall_widest_paths (from_ballots votes)) other A ≤
           getM (floyd_warshall_widest_paths (from_ballots votes)) A other)) := by
      refine List.countP_mono_left (fun d hd => hBtoA d ?_)
      rw [hsplit]
      simp [hd]
    omega
  refine ⟨schulze_ranking votes, ?_, ?_⟩
  · unfold schulze_method
    rw [if_pos (List.all_eq_true.mpr hval)]
  · unfold schulze_ranking earlierIn
    have hsorted := sortByKey_sorted
      (fun c => preferred_above_count (floyd_warshall_widest_paths (from_ballots votes)) c)
      (List.range (from_ballots votes).length)
    have hrevp : ((sortByKey
        (fun c => preferred_above_count (floyd_warshall_widest_paths (from_ballots votes)) c)
        (List.range (from_ballots votes).length)).reverse).Pairwise
        (fun a b => preferred_above_count (floyd_warshall_widest_paths (from_ballots votes)) b ≤
          preferred_above_count (floyd_warshall_widest_paths (from_ballots votes)) a) := by
      rw [List.pairwise_reverse]
      exact hsorted
    have hmemA : A ∈ (sortByKey
        (fun c => preferred_above_count (floyd_warshall_widest_paths (from_ballots votes)) c)
        (List.range (from_ballots votes).length)).reverse := by
      rw [List.mem_reverse, (sortByKey_perm _ _).mem_iff, List.mem_range, hsq.1]
      exact hAn
    have hmemB : B ∈ (sortByKey
        (fun c => preferred_above_count (floyd_warshall_widest_paths (from_ballots votes)) c)
        (List.range (from_ballots votes).length)).reverse := by
      rw [List.mem_reverse, (sortByKey_perm _ _).mem_iff, List.mem_range, hsq.1]
      exact hBn
    exact indexOf_lt_of_pairwise hrevp hmemA hmemB hABne (by omega)

theorem claim_c2_amended_witness :
    ∃ r, schulze_method [[(0, 1), (1, 2)], [(0, 5), (1, 7)]] = Except.ok r ∧
      earlierIn r 0 1 :=
  claim_c2_amended [[(0, 1), (1, 2)], [(0, 5), (1, 7)]] 0 1 (by decide)
    (by simp) (by decide) (by decide)

/-! ## Instant-runoff voting

`instant_runoff_vote` from `instant_runoff_voting.rs`. The per-round tally is
a `HashMap<Candidate, usize>`, and its iteration order is unspecified: Rust
seeds each map with fresh `RandomState` keys, so the entry that `min_by_key`
returns among tied minimum counts is not determined by the ballots. The
embedding keeps the tally as an association list in first-insertion order and
takes the tie-break as an explicit oracle `σ : Nat → Nat`: in round `r`, among
the entries achieving the minimum count, entry number `σ r` modulo their
number is eliminated. Every execution of the Rust code corresponds to some
`σ`. The loop is fueled; `claim_c8` shows that fuel `(number of distinct
candidates) + 1` is never exhausted. -/

/-- `min_by_key` over the ballot entries: the first entry with minimal rank,
`none` for the empty ballot (where the source `unwrap`s, i.e. panics). -/
def minRankEntry : Ballot → Option (Nat × Rank)
  | [] => none
  | e :: rest => some (rest.foldl (fun best p => if p.2 < best.2 then p else best) e)

/-- `first_choice_candidate`. -/
def first_choice_candidate (ballot : Ballot) : Option Nat :=
  (minRankEntry ballot).map Prod.fst

/-- One `*counts.entry(..).or_insert(0) += 1` on the association-list tally. -/
def tallyInsert (acc : List (Nat × Nat)) (c : Nat) : List (Nat × Nat) :=
  if acc.any (fun p => p.1 == c) then
    acc.map (fun p => if p.1 == c then (p.1, p.2 + 1) else p)
  else acc ++ [(c, 1)]

/-- `first_choice_tally`; `none` models the panic on a ballot with no
remaining candidates. -/
def first_choice_tally (ballots : List Ballot) : Option (List (Nat × Nat)) :=
  ballots.foldlM (fun acc b => (first_choice_candidate b).map (fun c => tallyInsert acc c)) []

/-- The tally entries achieving the minimum count; `min_by_key` returns one of
them, selected in Rust by the hash-map iteration order. -/
def minima (t : List (Nat × Nat)) : List (Nat × Nat) :=
  match t with
  | [] => []
  | e :: rest => (e :: rest).filter (fun p => p.2 == rest.foldl (fun acc q => min acc q.2) e.2)

/-- The weakest candidate eliminated this round: entry `σr` (modulo their
number) among the tied minima; `none` models the `unwrap` panic on an empty
tally. -/
def pickWeakest (σr : Nat) (t : List (Nat × Nat)) : Option Nat :=
  match minima t with
  | [] => none
  | m0 :: ms => some (((m0 :: ms).getD (σr % (ms.length + 1)) m0).1)

/-- `Vec::swap_remove(i)`: overwrite index `i` with the last element and pop. -/
def swapRemove (b : Ballot) (i : Nat) : Ballot :=
  (b.set i (b.getLastD (0, 0))).dropLast

/-- The `while i < ballot.len()` loop of `remove_candidate`, fueled: each step
either removes an element or advances `i`, so `b.length - i` decreases and
fuel `b.length + 1` suffices. -/
def sraLoop (c : Nat) : Nat → Ballot → Nat → Ballot
  | 0, b, _ => b
  | fuel + 1, b, i =>
    if h : i < b.length then
      if (b.get ⟨i, h⟩).1 = c then sraLoop c fuel (swapRemove b i) i
      else sraLoop c fuel b (i + 1)
    else b

/-- Remove every entry of candidate `c` from one ballot. -/
def removeFromBallot (b : Ballot) (c : Nat) : Ballot := sraLoop c (b.length + 1) b 0

/-- `remove_candidate`: drop the candidate from every ballot. -/
def remove_candidate (ballots : List Ballot) (c : Nat) : List Ballot :=
  ballots.map (fun b => removeFromBallot b c)

/-- Outcomes of `instant_runoff_vote`: `assertFailed` is the validity
`assert!`, `emptyBallot` the `unwrap` panic of `first_choice_candidate`,
`noMinimum` the `unwrap` panic of `min_by_key` on an empty tally, and
`outOfFuel` marks exhausted fuel (shown unreachable for sufficient fuel). -/
inductive IrvOut
  | winner (c : Nat)
  | assertFailed
  | emptyBallot
  | noMinimum
  | outOfFuel
deriving DecidableEq

/-- The `loop { .. }` of `instant_runoff_vote`, fueled, with tie-break oracle
`σ` consulted in round `r`. -/
def irvLoop (σ : Nat → Nat) : Nat → Nat → List Ballot → IrvOut
  | 0, _, _ => IrvOut.outOfFuel
  | fuel + 1, r, ballots =>
    match first_choice_tally ballots with
    | none => IrvOut.emptyBallot
    | some t =>
      if t.length = 1 then IrvOut.winner (t.headD (0, 0)).1
      else
        match pickWeakest (σ r) t with
        | none => IrvOut.noMinimum
        | some c => irvLoop σ fuel (r + 1) (remove_candidate ballots c)

/-- The distinct candidate handles appearing on the ballots. -/
def distinctCandidates (ballots : List Ballot) : Finset Nat :=
  (ballots.foldr (fun b acc => b.map Prod.fst ++ acc) []).toFinset

/-- `instant_runoff_vote`: assert validity, then run the loop (with enough
fuel; claim C8 shows it is never exhausted). -/
def instant_runoff_vote (votes : List Ballot) (σ : Nat → Nat) : IrvOut :=
  if votes.all valid_ballot then
    irvLoop σ ((distinctCandidates votes).card + 1) 0 votes
  else IrvOut.assertFailed

theorem pickWeakest_single {t : List (Nat × Nat)} {e : Nat × Nat}
    (h : minima t = [e]) (k : Nat) : pickWeakest k t = some e.1 := by
  unfold pickWeakest
  rw [h]
  simp [Nat.mod_one]

theorem mem_swapRemove {b : Ballot} {i : Nat} {p : Nat × Rank}
    (h : p ∈ swapRemove b i) : p ∈ b := by
  unfold swapRemove at h
  have h2 := (List.dropLast_sublist _).subset h
  rcases List.mem_or_eq_of_mem_set h2 with h3 | h3
  · exact h3
  · subst h3
    cases b with
    | nil =>
      simp [swapRemove] at h
    | cons x xs => exact List.mem_of_mem_getLast? rfl

theorem length_swapRemove (b : Ballot) (i : Nat) :
    (swapRemove b i).length = b.length - 1 := by
  unfold swapRemove
  rw [List.length_dropLast, List.length_set]

theorem sraLoop_subset (c : Nat) : ∀ (fuel : Nat) (b : Ballot) (i : Nat),
    ∀ p ∈ sraLoop c fuel b i, p ∈ b := by
  intro fuel
  induction fuel with
  | zero => exact fun b i p hp => hp
  | succ fuel ih =>
    intro b i p hp
    rw [sraLoop] at hp
    by_cases hi : i < b.length
    · rw [dif_pos hi] at hp
      by_cases hc : (b.get ⟨i, hi⟩).1 = c
      · rw [if_pos hc] at hp
        exact mem_swapRemove (ih (swapRemove b i) i p hp)
      · rw [if_neg hc] at hp
        exact ih b (i + 1) p hp
    · rw [dif_neg hi] at hp
      exact hp

theorem sraLoop_removes (c : Nat) : ∀ (fuel : Nat) (b : Ballot) (i : Nat),
    b.length - i < fuel →
    (∀ j (hj : j < b.length), j < i → (b[j]).1 ≠ c) →
    ∀ p ∈ sraLoop c fuel b i, p.1 ≠ c := by
  intro fuel
  induction fuel with
  | zero =>
    intro b i hm
    exact absurd hm (by omega)
  | succ fuel ih =>
    intro b i hm hpre p hp
    rw [sraLoop] at hp
    by_cases hi : i < b.length
    · rw [dif_pos hi] at hp
      by_cases hc : (b.get ⟨i, hi⟩).1 = c
      · rw [if_pos hc] at hp
        have hlen := length_swapRemove b i
        refine ih (swapRemove b i) i (by omega) ?_ p hp
        intro j hj hji
        have hjd : j < (b.set i (b.getLastD (0, 0))).length - 1 := by
          rw [length_swapRemove] at hj
          rw [List.length_set]
          omega
        have hjs : j < (b.set i (b.getLastD (0, 0))).length := by omega
        have hjb : j < b.length := by
          rw [List.length_set] at hjs
          omega
        have heq : (swapRemove b i)[j] = b[j] := by
          unfold swapRemove
          rw [List.getElem_dropLast, List.getElem_set_ne (by omega) _]
        rw [heq]
        exact hpre j _ hji
      · rw [if_neg hc] at hp
        refine ih b (i + 1) (by omega) ?_ p hp
        intro j hj hji
        rcases Nat.lt_or_ge j i with h1 | h1
        · exact hpre j hj h1
        · have hji2 : j = i := by omega
          subst hji2
          simpa using hc
    · rw [dif_neg hi] at hp
      obtain ⟨j, hj, hpe⟩ := List.mem_iff_getElem.mp hp
      rw [← hpe]
      exact hpre j hj (by omega)

theorem removeFromBallot_subset {b : Ballot} {c : Nat} {p : Nat × Rank}
    (h : p ∈ removeFromBallot b c) : p ∈ b :=
  sraLoop_subset c (b.length + 1) b 0 p h

theorem removeFromBallot_removes {b : Ballot} {c : Nat} {p : Nat × Rank}
    (h : p ∈ removeFromBallot b c) : p.1 ≠ c :=
  sraLoop_removes c (b.length + 1) b 0 (by omega) (fun j hj hji => by omega) p h

theorem foldl_pick_mem : ∀ (xs : List (Nat × Rank)) (x : Nat × Rank),
    xs.foldl (fun best p => if p.2 < best.2 then p else best) x ∈ x :: xs := by
  intro xs
  induction xs with
  | nil => intro x; simp
  | cons p r ih =>
    intro x
    rw [List.foldl_cons]
    have h1 := ih (if p.2 < x.2 then p else x)
    rcases List.mem_cons.mp h1 with h2 | h2
    · rw [h2]
      split
      · simp
      · simp
    · simp [h2]

theorem minRankEntry_mem {b : Ballot} {e : Nat × Rank} (h : minRankEntry b = some e) :
    e ∈ b := by
  cases b with
  | nil => simp [minRankEntry] at h
  | cons x xs =>
    rw [minRankEntry] at h
    have h2 := Option.some.inj h
    rw [← h2]
    exact foldl_pick_mem xs x

theorem first_choice_mem {b : Ballot} {c : Nat} (h : first_choice_candidate b = some c) :
    ∃ q ∈ b, q.1 = c := by
  unfold first_choice_candidate at h
  cases hm : minRankEntry b with
  | none =>
    rw [hm] at h
    exact Option.noConfusion h
  | some e =>
    rw [hm] at h
    exact ⟨e, minRankEntry_mem hm, Option.some.inj h⟩

theorem tallyInsert_key {acc : List (Nat × Nat)} {c : Nat} {p : Nat × Nat}
    (h : p ∈ tallyInsert acc c) : p.1 = c ∨ p.1 ∈ acc.map Prod.fst := by
  unfold tallyInsert at h
  split at h
  · obtain ⟨q, hq, hqe⟩ := List.mem_map.mp h
    right
    have hk : q.1 ∈ acc.map Prod.fst := List.mem_map_of_mem _ hq
    rw [← hqe]
    split <;> simpa using hk
  · rcases List.mem_append.mp h with h1 | h1
    · exact Or.inr (List.mem_map_of_mem _ h1)
    · left
      have h2 : p = (c, 1) := by simpa using h1
      rw [h2]

theorem tally_keys : ∀ (ballots : List Ballot) (acc t : List (Nat × Nat)),
    List.foldlM (fun acc b => (first_choice_candidate b).map (fun c => tallyInsert acc c))
      acc ballots = some t →
    ∀ p ∈ t, p.1 ∈ acc.map Prod.fst ∨ ∃ b ∈ ballots, first_choice_candidate b = some p.1 := by
  intro ballots
  induction ballots with
  | nil =>
    intro acc t h p hp
    rw [List.foldlM_nil] at h
    have h2 := Option.some.inj h
    subst h2
    exact Or.inl (List.mem_map_of_mem _ hp)
  | cons b bs ih =>
    intro acc t h p hp
    rw [List.foldlM_cons] at h
    cases hfc : first_choice_candidate b with
    | none =>
      rw [hfc] at h
      exact Option.noConfusion h
    | some c =>
      rw [hfc] at h
      have h3 : List.foldlM
          (fun acc b => (first_choice_candidate b).map (fun c => tallyInsert acc c))
          (tallyInsert acc c) bs = some t := h
      rcases ih (tallyInsert acc c) t h3 p hp with h1 | h1
      · obtain ⟨q, hq, hqe⟩ := List.mem_map.mp h1
        rcases tallyInsert_key hq with h2 | h2
        · refine Or.inr ⟨b, by simp, ?_⟩
          rw [hfc, ← hqe, h2]
        · left
          rw [← hqe]
          exact h2
      · obtain ⟨b2, hb2, he⟩ := h1
        exact Or.inr ⟨b2, by simp [hb2], he⟩

theorem tally_sources {ballots : List Ballot} {t : List (Nat × Nat)}
    (h : first_choice_tally ballots = some t) :
    ∀ p ∈ t, ∃ b ∈ ballots, first_choice_candidate b = some p.1 := by
  intro p hp
  rcases tally_keys ballots [] t h p hp with h1 | h1
  · simp at h1
  · exact h1

theorem minima_subset {t : List (Nat × Nat)} : ∀ e ∈ minima t, e ∈ t := by
  intro e he
  cases t with
  | nil => simpa [minima] using he
  | cons e0 rest =>
    rw [minima] at he
    exact List.mem_of_mem_filter he

theorem pickWeakest_mem {σr : Nat} {t : List (Nat × Nat)} {c : Nat}
    (h : pickWeakest σr t = some c) : ∃ e ∈ t, e.1 = c := by
  unfold pickWeakest at h
  cases hm : minima t with
  | nil =>
    rw [hm] at h
    simp at h
  | cons m0 ms =>
    rw [hm] at h
    simp only at h
    have hc := Option.some.inj h
    have hlt : σr % (ms.length + 1) < (m0 :: ms).length := by
      simp only [List.length_cons]
      exact Nat.mod_lt _ (Nat.succ_pos _)
    have hmem : (m0 :: ms).getD (σr % (ms.length + 1)) m0 ∈ m0 :: ms := by
      rw [List.getD_eq_getElem?_getD, List.getElem?_eq_getElem hlt]
      exact List.getElem_mem ..
    have hmem2 : (m0 :: ms).getD (σr % (ms.length + 1)) m0 ∈ minima t := by
      rw [hm]
      exact hmem
    exact ⟨_, minima_subset _ hmem2, hc⟩

theorem mem_candFlat : ∀ (ballots : List Ballot) (x : Nat),
    x ∈ ballots.foldr (fun b acc => b.map Prod.fst ++ acc) [] ↔
      ∃ b ∈ ballots, x ∈ b.map Prod.fst := by
  intro ballots x
  induction ballots with
  | nil => simp
  | cons b bs ih =>
    simp only [List.foldr_cons, List.mem_append, ih, List.mem_cons]
    constructor
    · rintro (h1 | ⟨b2, hb2, h2⟩)
      · exact ⟨b, Or.inl rfl, h1⟩
      · exact ⟨b2, Or.inr hb2, h2⟩
    · rintro ⟨b2, hb2 | hb2, h2⟩
      · subst hb2
        exact Or.inl h2
      · exact Or.inr ⟨b2, hb2, h2⟩

theorem mem_distinctCandidates {ballots : List Ballot} {b : Ballot} {p : Nat × Rank}
    (hb : b ∈ ballots) (hp : p ∈ b) : p.1 ∈ distinctCandidates ballots := by
  unfold distinctCandidates
  rw [List.mem_toFinset, mem_candFlat]
  exact ⟨b, hb, List.mem_map_of_mem _ hp⟩

theorem distinct_remove_subset (ballots : List Ballot) (c : Nat) :
    distinctCandidates (remove_candidate ballots c) ⊆ (distinctCandidates ballots).erase c := by
  intro x hx
  rw [distinctCandidates, List.mem_toFinset, mem_candFlat] at hx
  obtain ⟨b2, hb2, hx2⟩ := hx
  obtain ⟨b, hb, hb2e⟩ := List.mem_map.mp hb2
  obtain ⟨p, hp, hpe⟩ := List.mem_map.mp hx2
  rw [← hb2e] at hp
  have hmem : x ∈ distinctCandidates ballots :=
    hpe ▸ mem_distinctCandidates hb (removeFromBallot_subset hp)
  have hne : x ≠ c := hpe ▸ removeFromBallot_removes hp
  exact Finset.mem_erase.mpr ⟨hne, hmem⟩

theorem irvLoop_no_fuel_exhaustion (σ : Nat → Nat) :
    ∀ (fuel : Nat) (ballots : List Ballot) (r : Nat),
      (distinctCandidates ballots).card < fuel →
      irvLoop σ fuel r ballots ≠ IrvOut.outOfFuel := by
  intro fuel
  induction fuel with
  | zero =>
    intro ballots r h
    exact absurd h (by omega)
  | succ fuel ih =>
    intro ballots r h
    rw [irvLoop]
    cases hT : first_choice_tally ballots with
    | none => simp
    | some t =>
      dsimp only
      by_cases hlen : t.length = 1
      · rw [if_pos hlen]
        simp
      · rw [if_neg hlen]
        cases hpick : pickWeakest (σ r) t with
        | none => simp
        | some c =>
          dsimp only
          refine ih (remove_candidate ballots c) (r + 1) ?_
          obtain ⟨e, he, hec⟩ := pickWeakest_mem hpick
          obtain ⟨b, hb, hfc⟩ := tally_sources hT e he
          obtain ⟨q, hq, hqe⟩ := first_choice_mem hfc
          have hcmem : c ∈ distinctCandidates ballots := by
            rw [← hec, ← hqe]
            exact mem_distinctCandidates hb hq
          have h1 := Finset.card_le_card (distinct_remove_subset ballots c)
          have h2 := Finset.card_erase_of_mem hcmem
          have h3 : 0 < (distinctCandidates ballots).card :=
            Finset.card_pos.mpr ⟨c, hcmem⟩
          omega

/-- C8: `instant_runoff_vote` terminates on every input that does not panic:
the elimination loop runs at most `(number of distinct candidates) + 1`
rounds, because every non-final round eliminates a candidate that appears on
some ballot. Formally, the fueled loop never exhausts any fuel beyond the
number of distinct candidates, and `instant_runoff_vote` (which supplies that
much fuel) never returns the fuel-exhaustion marker. -/
theorem claim_c8 (votes : List Ballot) (σ : Nat → Nat) :
    (∀ fuel r, (distinctCandidates votes).card < fuel →
      irvLoop σ fuel r votes ≠ IrvOut.outOfFuel) ∧
    instant_runoff_vote votes σ ≠ IrvOut.outOfFuel := by
  refine ⟨fun fuel r h => irvLoop_no_fuel_exhaustion σ fuel votes r h, ?_⟩
  unfold instant_runoff_vote
  split
  · exact irvLoop_no_fuel_exhaustion σ _ votes 0 (by omega)
  · simp

theorem claim_c8_witness :
    irvLoop (fun _ => 0) 4 0 [[(0, 1)], [(1, 2)]] ≠ IrvOut.outOfFuel ∧
    instant_runoff_vote [[(0, 1)], [(1, 2)]] (fun _ => 0) ≠ IrvOut.outOfFuel :=
  ⟨(claim_c8 [[(0, 1)], [(1, 2)]] (fun _ => 0)).1 4 0 (by decide),
   (claim_c8 [[(0, 1)], [(1, 2)]] (fun _ => 0)).2⟩

/-- C4 (the code contradicts the claim): a ballot that is empty, or that
becomes empty after eliminations, makes the tally call
`first_choice_candidate` on a ballot with no entries, whose `min_by_key`
yields `None` and whose `unwrap` panics — for every tie-break behaviour of
the hash map. The first input is a single empty ballot (accepted by the
validity check since the empty ballot is valid); in the second input all
ballots are nonempty but the first one becomes empty as soon as candidate `0`
is eliminated in the first round. The claim that such ballots simply
contribute no first-choice vote describes the intended behaviour; the code
panics instead. -/
theorem claim_c4 :
    (∀ σ : Nat → Nat, instant_runoff_vote [[]] σ = IrvOut.emptyBallot) ∧
    (∀ σ : Nat → Nat,
      instant_runoff_vote [[(0, 1)], [(1, 1)], [(1, 1)], [(2, 1)], [(2, 1)]] σ =
        IrvOut.emptyBallot) := by
  constructor
  · intro σ
    rfl
  · intro σ
    have h1 : pickWeakest (σ 0) [(0, 1), (1, 2), (2, 2)] = some 0 :=
      pickWeakest_single (by rfl) (σ 0)
    unfold instant_runoff_vote
    rw [if_pos (by decide)]
    have hcard : (distinctCandidates [[(0, 1)], [(1, 1)], [(1, 1)], [(2, 1)], [(2, 1)]]).card
        + 1 = 4 := by decide
    rw [hcard]
    show irvLoop σ (3 + 1) 0 _ = _
    rw [irvLoop]
    have ht : first_choice_tally [[(0, 1)], [(1, 1)], [(1, 1)], [(2, 1)], [(2, 1)]] =
        some [(0, 1), (1, 2), (2, 2)] := by rfl
    rw [ht]
    dsimp only
    rw [if_neg (by decide), h1]
    rfl

/-- C6 counterexample: `irv_winner` consults the iteration order of a freshly
seeded `HashMap` to break ties for the fewest first-choice votes, and two
calls on identical ballot collections may break them differently. On this
four-ballot input, eliminating candidate `0` in the tied first round makes
candidate `2` win, while eliminating candidate `1` makes candidate `0` win:
the two tie-break oracles model two admissible executions with different
outputs. -/
theorem claim_c6_counterexample :
    instant_runoff_vote
      [[(0, 1), (1, 2), (2, 3)], [(1, 1), (0, 2), (2, 3)],
       [(2, 1), (0, 2), (1, 3)], [(2, 1), (1, 2), (0, 3)]] (fun _ => 0) = IrvOut.winner 2 ∧
    instant_runoff_vote
      [[(0, 1), (1, 2), (2, 3)], [(1, 1), (0, 2), (2, 3)],
       [(2, 1), (0, 2), (1, 3)], [(2, 1), (1, 2), (0, 3)]] (fun _ => 1) = IrvOut.winner 0 ∧
    IrvOut.winner 2 ≠ IrvOut.winner 0 := by
  refine ⟨by decide, by decide, by decide⟩

/-- Every round of the elimination loop (up to the given fuel) has a unique
weakest candidate. -/
def uniqueMinRun : Nat → List Ballot → Bool
  | 0, _ => true
  | fuel + 1, ballots =>
    match first_choice_tally ballots with
    | none => true
    | some t =>
      if t.length = 1 then true
      else
        match minima t with
        | [e] => uniqueMinRun fuel (remove_candidate ballots e.1)
        | _ => false

theorem irvLoop_indep (σ σ' : Nat → Nat) :
    ∀ (fuel : Nat) (ballots : List Ballot) (r r' : Nat),
      uniqueMinRun fuel ballots = true →
      irvLoop σ fuel r ballots = irvLoop σ' fuel r' ballots := by
  intro fuel
  induction fuel with
  | zero =>
    intro ballots r r' h
    rfl
  | succ fuel ih =>
    intro ballots r r' h
    rw [irvLoop, irvLoop]
    rw [uniqueMinRun] at h
    cases hT : first_choice_tally ballots with
    | none => rfl
    | some t =>
      rw [hT] at h
      dsimp only at h ⊢
      by_cases hlen : t.length = 1
      · rw [if_pos hlen, if_pos hlen]
      · rw [if_neg hlen, if_neg hlen]
        rw [if_neg hlen] at h
        cases hM : minima t with
        | nil =>
          rw [hM] at h
          exact absurd h (by simp)
        | cons e ms =>
          cases ms with
          | nil =>
            rw [hM] at h
            dsimp only at h
            rw [pickWeakest_single hM (σ r), pickWeakest_single hM (σ' r')]
            dsimp only
            exact ih (remove_candidate ballots e.1) (r + 1) (r' + 1) h
          | cons e2 ms2 =>
            rw [hM] at h
            exact absurd h (by simp)

/-- C6 amended: `schulze_winner` and `schulze_rank` are pure functions of the
ballots (their embeddings are deterministic Lean functions of `votes` alone),
and `irv_winner` produces identical output across calls provided every
elimination round has a unique weakest candidate; with tied minima the
freshly seeded hash map may order the tally differently on the two calls and
the winners can differ (see the counterexample). -/
theorem claim_c6_amended (votes : List Ballot) (σ σ' : Nat → Nat)
    (h : uniqueMinRun ((distinctCandidates votes).card + 1) votes = true) :
    instant_runoff_vote votes σ = instant_runoff_vote votes σ' := by
  unfold instant_runoff_vote
  split
  · exact irvLoop_indep σ σ' _ votes 0 0 h
  · rfl

theorem claim_c6_amended_witness :
    instant_runoff_vote
      [[(0, 1), (1, 2), (2, 3)], [(0, 1), (1, 2), (2, 3)], [(2, 1), (1, 2), (0, 3)],
       [(1, 1), (2, 2), (0, 3)], [(1, 1), (2, 2), (0, 3)]] (fun _ => 0) =
    instant_runoff_vote
      [[(0, 1), (1, 2), (2, 3)], [(0, 1), (1, 2), (2, 3)], [(2, 1), (1, 2), (0, 3)],
       [(1, 1), (2, 2), (0, 3)], [(1, 1), (2, 2), (0, 3)]] (fun _ => 7) :=
  claim_c6_amended
    [[(0, 1), (1, 2), (2, 3)], [(0, 1), (1, 2), (2, 3)], [(2, 1), (1, 2), (0, 3)],
     [(1, 1), (2, 2), (0, 3)], [(1, 1), (2, 2), (0, 3)]] (fun _ => 0) (fun _ => 7)
    (by decide)

end Electoral
